import Mathlib

/-!
Verification of the FairSplit agent framework and debt settlement engine.

This file shallowly embeds the core subsystem of the repository:
* `src/src/lib/utils.ts` (`roundTo`, `calculateGini`),
* `src/src/agents/DebtOptimizerAgent.ts` (the Debt Settlement Engine and
  Fairness Scorer),
* `src/src/agents/base/AgentOrchestrator.ts` (the Task Graph Orchestrator),
* the debt-list check of `BusinessLogicGuardrail.validate`
  (`src/src/guardrails/Guardrails.ts`).

Modelling conventions:
* JavaScript `number` is modelled as an exact rational (`ℚ`); `Math.round`
  is `⌊x + 1/2⌋`, which is what V8 computes on reals (half away from
  negative infinity).
* JavaScript `Map` objects (insertion-ordered) are modelled as association
  lists where `set` updates an existing key in place or appends a new one.
* `Array.prototype.sort`, which is stable, is modelled by the stable
  `List.insertionSort`.
* Stateful recursion (the DFS routines) is modelled by explicit state
  passing; termination is by well-founded recursion, or by a fuel
  parameter that provably dominates the recursion depth of the source.
-/

namespace FairSplit

/-! ## Rounding — `src/src/lib/utils.ts`, `roundTo` (lines 118-120) -/

/-- JavaScript `Math.round` on an exact rational: round half up. -/
def jsRound (q : ℚ) : ℤ := ⌊q + 1/2⌋

/-- `roundTo(value, decimals) = Math.round(value * 10^d) / 10^d`. -/
def roundTo (q : ℚ) (d : ℕ) : ℚ := (jsRound (q * 10 ^ d) : ℚ) / 10 ^ d

theorem jsRound_intCast (k : ℤ) : jsRound (k : ℚ) = k := by
  unfold jsRound
  rw [add_comm]
  rw [Int.floor_add_int]
  norm_num

theorem jsRound_le_of_le {a b : ℚ} (h : a ≤ b) : jsRound a ≤ jsRound b := by
  unfold jsRound
  exact Int.floor_le_floor (by linarith)

/-- The rounding error of `jsRound` is at most `1/2` in absolute value. -/
theorem abs_jsRound_sub_le (q : ℚ) : |(jsRound q : ℚ) - q| ≤ 1/2 := by
  unfold jsRound
  have h1 := Int.floor_le (q + 1/2)
  have h2 := Int.lt_floor_add_one (q + 1/2)
  rw [abs_le]
  constructor <;> push_cast at h1 h2 ⊢ <;> linarith

/-- Rounding to two decimals moves a value by at most `1/200`. -/
theorem abs_roundTo_two_sub_le (q : ℚ) : |roundTo q 2 - q| ≤ 1/200 := by
  unfold roundTo
  have h := abs_jsRound_sub_le (q * 10 ^ 2)
  have h100 : (10:ℚ) ^ 2 = 100 := by norm_num
  rw [h100] at *
  have : |(jsRound (q * 100) : ℚ) / 100 - q| = |(jsRound (q * 100) : ℚ) - q * 100| / 100 := by
    rw [← abs_of_pos (show (0:ℚ) < 100 by norm_num), ← abs_div]
    congr 1
    field_simp
    ring
  rw [this]
  rw [div_le_iff (by norm_num : (0:ℚ) < 100)]
  calc |(jsRound (q * 100) : ℚ) - q * 100| ≤ 1/2 := h
    _ ≤ 1/200 * 100 := by norm_num

/-- `roundTo _ 2` is the identity on integer multiples of `1/100`. -/
theorem roundTo_two_of_cents (k : ℤ) : roundTo ((k : ℚ) / 100) 2 = (k : ℚ) / 100 := by
  unfold roundTo
  have h1 : ((k : ℚ) / 100) * 10 ^ 2 = (k : ℚ) := by
    rw [div_mul_eq_mul_div]
    norm_num
  rw [h1, jsRound_intCast]
  norm_num

theorem roundTo_two_zero : roundTo 0 2 = 0 := by
  have := roundTo_two_of_cents 0
  simpa using this

theorem roundTo_two_mono {a b : ℚ} (h : a ≤ b) : roundTo a 2 ≤ roundTo b 2 := by
  unfold roundTo
  have : jsRound (a * 10 ^ 2) ≤ jsRound (b * 10 ^ 2) :=
    jsRound_le_of_le (by nlinarith)
  have hpos : (0:ℚ) < 10 ^ 2 := by norm_num
  rw [div_le_div_iff_of_pos_right hpos]
  exact_mod_cast this

/-- A rational is an integer number of cents. -/
def isCents (q : ℚ) : Prop := (q * 100).den = 1

instance (q : ℚ) : Decidable (isCents q) := by
  unfold isCents
  infer_instance

theorem isCents_iff {q : ℚ} : isCents q ↔ ∃ k : ℤ, q = (k : ℚ) / 100 := by
  constructor
  · intro h
    refine ⟨(q * 100).num, ?_⟩
    have h1 : ((q * 100).num : ℚ) = q * 100 := by
      rw [← Rat.num_div_den (q * 100), h]
      norm_num
    rw [h1]
    field_simp
  · rintro ⟨k, rfl⟩
    unfold isCents
    have : (k : ℚ) / 100 * 100 = (k : ℚ) := by field_simp
    rw [this]
    exact Rat.den_intCast k

theorem isCents_zero : isCents 0 := isCents_iff.mpr ⟨0, by norm_num⟩

theorem isCents_add {a b : ℚ} (ha : isCents a) (hb : isCents b) : isCents (a + b) := by
  rw [isCents_iff] at *
  obtain ⟨k, rfl⟩ := ha
  obtain ⟨m, rfl⟩ := hb
  exact ⟨k + m, by push_cast; ring⟩

theorem isCents_sub {a b : ℚ} (ha : isCents a) (hb : isCents b) : isCents (a - b) := by
  rw [isCents_iff] at *
  obtain ⟨k, rfl⟩ := ha
  obtain ⟨m, rfl⟩ := hb
  exact ⟨k - m, by push_cast; ring⟩

theorem isCents_neg {a : ℚ} (ha : isCents a) : isCents (-a) := by
  have := isCents_sub isCents_zero ha
  simpa using this

theorem roundTo_two_of_isCents {q : ℚ} (h : isCents q) : roundTo q 2 = q := by
  rw [isCents_iff] at h
  obtain ⟨k, rfl⟩ := h
  exact roundTo_two_of_cents k

theorem isCents_min {a b : ℚ} (ha : isCents a) (hb : isCents b) : isCents (min a b) := by
  rcases min_choice a b with h | h <;> rw [h] <;> assumption

/-- Two distinct integer multiples of `1/100` differ by at least `1/100`;
in particular a positive cent amount is at least one cent. -/
theorem one_cent_le_of_isCents_pos {q : ℚ} (h : isCents q) (hp : 0 < q) : 1/100 ≤ q := by
  rw [isCents_iff] at h
  obtain ⟨k, rfl⟩ := h
  have hk : 0 < k := by
    by_contra hk
    push_neg at hk
    have : (k : ℚ) ≤ 0 := by exact_mod_cast hk
    nlinarith
  have : (1 : ℚ) ≤ (k : ℚ) := by exact_mod_cast hk
  rw [div_le_div_iff (by norm_num) (by norm_num)]
  linarith

/-! ## Debt Settlement Engine — `src/src/agents/DebtOptimizerAgent.ts` -/

/-- `Debt { from, to, amount }` (`from` is a reserved word in Lean). -/
structure Debt where
  from' : String
  to' : String
  amount : ℚ
deriving DecidableEq, Repr

/-- Settlement `Transaction { from, to, amount }`. -/
structure Transaction where
  from' : String
  to' : String
  amount : ℚ
deriving DecidableEq, Repr

/-- `NetPosition { person, balance }`. -/
structure NetPosition where
  person : String
  balance : ℚ
deriving DecidableEq, Repr

/-- `DebtOptimizeOutput`; `balances` is the insertion-ordered
`Record<string, number>` modelled as an association list. -/
structure DebtOptimizeOutput where
  originalTransactions : ℕ
  optimizedTransactions : ℕ
  transactions : List Transaction
  saved : ℤ
  totalAmount : ℚ
  balances : List (String × ℚ)
deriving DecidableEq, Repr

/-- `Map.get` on an insertion-ordered map. -/
def mapGet {β : Type} (m : List (String × β)) (k : String) : Option β :=
  (m.find? (fun e => e.1 == k)).map Prod.snd

/-- `Map.set`: update an existing key in place, else append. -/
def mapSet {β : Type} : List (String × β) → String → β → List (String × β)
  | [], k, v => [(k, v)]
  | e :: rest, k, v => if e.1 = k then (k, v) :: rest else e :: mapSet rest k v

/-- One iteration of the `for (const debt of debts)` loop of
`calculateNetPositions` (lines 92-98): debit the `from` party, credit the
`to` party (`positions.get(x) || 0` reads `0` for an absent party). -/
def applyDebt (m : List (String × ℚ)) (d : Debt) : List (String × ℚ) :=
  let m1 := mapSet m d.from' ((mapGet m d.from').getD 0 - d.amount)
  mapSet m1 d.to' ((mapGet m1 d.to').getD 0 + d.amount)

/-- The accumulated positions map, before the final 2-decimal rounding. -/
def calcPositionsRaw (debts : List Debt) : List (String × ℚ) :=
  debts.foldl applyDebt []

/-- `calculateNetPositions` (lines 88-105): accumulate, then round every
balance to two decimals. -/
def calculateNetPositions (debts : List Debt) : List NetPosition :=
  (calcPositionsRaw debts).map (fun e => ⟨e.1, roundTo e.2 2⟩)

/-- `.sort((a, b) => b.balance - a.balance)`: stable sort, descending by
balance.  `Array.prototype.sort` is stable, as is `insertionSort`. -/
def sortByBalanceDesc (l : List NetPosition) : List NetPosition :=
  List.insertionSort (fun x y => y.balance ≤ x.balance) l

/-- The two-pointer greedy matching loop of `optimizeDebts` (lines
124-150).  The source advances index `i` (resp. `j`) when the creditor's
(debtor's) remaining balance hits `0`; consuming a list head models
advancing the pointer.  After subtracting `amount = min c d`, the side
attaining the minimum is left with exactly `0` and `roundTo 0 2 = 0`, so
at least one branch below always fires; in the `cb ≠ 0` branch the source
only advances `j` (see `optimizeLoop_cases` below). -/
def optimizeLoop : List NetPosition → List NetPosition → List Transaction
  | [], _ => []
  | _ :: _, [] => []
  | c :: cs, d :: ds =>
    let amount := min c.balance d.balance
    let emitted := if 1/100 ≤ amount then [Transaction.mk d.person c.person (roundTo amount 2)] else []
    let cb := roundTo (c.balance - amount) 2
    let db := roundTo (d.balance - amount) 2
    if cb = 0 then
      if db = 0 then emitted ++ optimizeLoop cs ds
      else emitted ++ optimizeLoop cs (⟨d.person, db⟩ :: ds)
    else
      emitted ++ optimizeLoop (⟨c.person, cb⟩ :: cs) ds
termination_by C D => C.length + D.length

/-- Justification that `optimizeLoop` is a faithful rendering of the
source's `while` loop: after subtracting the minimum, the debtor side is
settled exactly whenever the creditor side is not (and vice versa), so
the source's `if (creditor.balance === 0) i++; if (debtor.balance === 0) j++`
always advances at least one pointer, and advances only `j` when
`cb ≠ 0`. -/
theorem optimizeLoop_cases (c d : ℚ) :
    roundTo (c - min c d) 2 = 0 ∨ roundTo (d - min c d) 2 = 0 := by
  rcases min_choice c d with h | h
  · left
    rw [h, sub_self, roundTo_two_zero]
  · right
    rw [h, sub_self, roundTo_two_zero]

/-- `optimizeDebts` (lines 111-153): split into creditors and (negated)
debtors, sort each descending, then run the greedy loop. -/
def optimizeDebts (netPositions : List NetPosition) : List Transaction :=
  let creditors := sortByBalanceDesc (netPositions.filter (fun np => decide (0 < np.balance)))
  let debtors := sortByBalanceDesc
    ((netPositions.filter (fun np => decide (np.balance < 0))).map (fun np => ⟨np.person, -np.balance⟩))
  optimizeLoop creditors debtors

/-- The greedy loop together with its side effect on the creditor objects.
In the source, `creditors` holds *references* into the caller's
`NetPosition` array (`filter` copies no objects, while the debtors are
spread-copies on line 121), and line 144 assigns
`creditor.balance = roundTo(creditor.balance - amount, 2)`, mutating the
shared objects in place.  The second component records each creditor
object's balance at loop exit, in the creditors' order: a consumed
creditor holds the `0` that advanced the pointer, the creditor under the
pointer its current residual, creditors never reached their original
balance.  The first component is the transactions list of `optimizeLoop`
(`optimizeLoopM_fst` below). -/
def optimizeLoopM : List NetPosition → List NetPosition → List Transaction × List NetPosition
  | [], _ => ([], [])
  | c :: cs, [] => ([], c :: cs)
  | c :: cs, d :: ds =>
    let amount := min c.balance d.balance
    let emitted := if 1/100 ≤ amount then [Transaction.mk d.person c.person (roundTo amount 2)] else []
    let cb := roundTo (c.balance - amount) 2
    let db := roundTo (d.balance - amount) 2
    if cb = 0 then
      if db = 0 then
        let r := optimizeLoopM cs ds
        (emitted ++ r.1, ⟨c.person, cb⟩ :: r.2)
      else
        let r := optimizeLoopM cs (⟨d.person, db⟩ :: ds)
        (emitted ++ r.1, ⟨c.person, cb⟩ :: r.2)
    else
      let r := optimizeLoopM (⟨c.person, cb⟩ :: cs) ds
      (emitted ++ r.1, r.2)
termination_by C D => C.length + D.length

/-- `optimizeDebts` with its side effect: the returned transactions
together with the final states of the mutated creditor objects. -/
def optimizeDebtsM (netPositions : List NetPosition) : List Transaction × List NetPosition :=
  let creditors := sortByBalanceDesc (netPositions.filter (fun np => decide (0 < np.balance)))
  let debtors := sortByBalanceDesc
    ((netPositions.filter (fun np => decide (np.balance < 0))).map (fun np => ⟨np.person, -np.balance⟩))
  optimizeLoopM creditors debtors

/-- The default of the `minimumAmount` option (line 41). -/
def defaultMinimumAmount : ℚ := 1/2

/-- `DebtOptimizerAgent.execute` (lines 40-82).  The `filter` on lines
58-60 and the creditors `filter` inside `optimizeDebts` share the
`NetPosition` object references, and the greedy loop mutates the creditor
objects' balances in place (line 144), so the `balances` object built on
lines 69-72 reads each matched creditor's *residual* balance.  The
mutation is modelled by replacing each creditor's balance with its final
value from the loop; persons are unique (they are `Map` keys), so the
lookup by person identifies the mutated object. -/
def dOptExecute (debts : List Debt) (minimumAmount : ℚ) : DebtOptimizeOutput :=
  if debts.length = 0 then
    { originalTransactions := 0
      optimizedTransactions := 0
      transactions := []
      saved := 0
      totalAmount := 0
      balances := [] }
  else
    let netPositions := calculateNetPositions debts
    let filteredPositions := netPositions.filter (fun np => decide (minimumAmount ≤ |np.balance|))
    let optimizedM := optimizeDebtsM filteredPositions
    let optimized := optimizedM.1
    let finalPositions := netPositions.map (fun np =>
      (⟨np.person,
        (mapGet (optimizedM.2.map (fun c => (c.person, c.balance))) np.person).getD
          np.balance⟩ : NetPosition))
    let totalAmount := (optimized.map (fun t => t.amount)).sum
    { originalTransactions := debts.length
      optimizedTransactions := optimized.length
      transactions := optimized
      saved := (debts.length : ℤ) - optimized.length
      totalAmount := roundTo totalAmount 2
      balances := finalPositions.map (fun np => (np.person, roundTo np.balance 2)) }

/-- `newBalances[person] || 0` in `validateOutput`. -/
def lookupBalance (m : List (String × ℚ)) (k : String) : ℚ :=
  ((m.find? (fun e => e.1 == k)).map Prod.snd).getD 0

/-- The data of the `Error` thrown on lines 178-181: the person and the
two compared balances.  The thrown message is the interpolation
`Balance mismatch for <person>: original <original>, optimized <optimized>`
of exactly these three values; the error is modelled by the data rather
than by JavaScript's number-to-string rendering. -/
structure BalanceMismatch where
  person : String
  original : ℚ
  optimized : ℚ
deriving DecidableEq, Repr

/-- The per-person check loop of `validateOutput` (lines 173-183). -/
def checkBalances (newB : List (String × ℚ)) : List (String × ℚ) → Except BalanceMismatch Unit
  | [] => .ok ()
  | (p, ob) :: rest =>
    if 1/100 < |ob - lookupBalance newB p| then
      .error ⟨p, ob, lookupBalance newB p⟩
    else checkBalances newB rest

/-- The `newBalances` map of `validateOutput` (lines 159-170): net
positions recomputed from the emitted transactions alone. -/
def replayedBalances (out : DebtOptimizeOutput) : List (String × ℚ) :=
  (calculateNetPositions (out.transactions.map (fun t => Debt.mk t.from' t.to' t.amount))).map
    (fun np => (np.person, np.balance))

/-- `DebtOptimizerAgent.validateOutput` (lines 158-184): recompute net
positions from the emitted transactions alone and require every original
balance to match within `0.01`. -/
def validateOutput (out : DebtOptimizeOutput) : Except BalanceMismatch Unit :=
  checkBalances (replayedBalances out) out.balances

/-- `BaseAgent.run` for the `DebtOptimizerAgent`: the agent registers no
guardrails and audit logging is fire-and-forget I/O, so a run is
`execute` followed by `validateOutput`; a validation failure rejects the
whole run. -/
def dOptRun (debts : List Debt) (minimumAmount : ℚ) : Except BalanceMismatch DebtOptimizeOutput :=
  let out := dOptExecute debts minimumAmount
  match validateOutput out with
  | .error e => .error e
  | .ok _ => .ok out

/-! ## Fairness Scorer — `DebtOptimizerAgent.calculateFairnessScore`
(lines 253-289) and `calculateGini` (`src/src/lib/utils.ts` lines 180-198) -/

/-- `Σ_i Σ_j |l[i] - l[j]|`, the numerator double loop (lines 273-278). -/
def pairAbsSum (l : List ℚ) : ℚ :=
  (l.map (fun a => (l.map (fun b => |a - b|)).sum)).sum

/-- `[...values].sort((a, b) => a - b)`: ascending stable sort. -/
def sortAsc (l : List ℚ) : List ℚ := List.insertionSort (· ≤ ·) l

/-- Return record of `calculateFairnessScore`. -/
structure FairnessResult where
  giniCoefficient : ℚ
  fairnessScore : ℚ
deriving DecidableEq, Repr

/-- The body of `calculateFairnessScore` from line 260 on, operating on the
list of absolute balances. -/
def giniScoreCore (balances : List ℚ) : FairnessResult :=
  if balances.length = 0 then ⟨0, 100⟩
  else
    let sorted := sortAsc balances
    let n : ℚ := sorted.length
    let mean := sorted.sum / n
    if mean = 0 then ⟨0, 100⟩
    else
      let gini := pairAbsSum sorted / (2 * n * n * mean)
      ⟨roundTo gini 4, roundTo ((1 - gini) * 100) 1⟩

/-- `DebtOptimizerAgent.calculateFairnessScore` (lines 253-289): net
positions of the debts, absolute values, then the Gini computation. -/
def calculateFairnessScore (debts : List Debt) : FairnessResult :=
  giniScoreCore ((calculateNetPositions debts).map (fun np => |np.balance|))

/-- `calculateGini` (`src/src/lib/utils.ts` lines 180-198): same Gini
computation over the raw values (no absolute value is taken there). -/
def calculateGini (values : List ℚ) : ℚ :=
  if values.length = 0 then 0
  else
    let sorted := sortAsc values
    let n : ℚ := sorted.length
    let mean := sorted.sum / n
    if mean = 0 then 0
    else roundTo (pairAbsSum sorted / (2 * n * n * mean)) 4

/-- The Gini coefficient exactly as the specification words it:
`(Σ_i Σ_j |v_i - v_j|) / (2 * n^2 * mean(v))`, defined as `0` when `n = 0`
or `mean(v) = 0`.  Spec-side definition, used only to compare the code's
value against the spec's formula. -/
def giniFormula (v : List ℚ) : ℚ :=
  if v.length = 0 then 0
  else if v.sum / (v.length : ℚ) = 0 then 0
  else pairAbsSum v / (2 * (v.length : ℚ) ^ 2 * (v.sum / (v.length : ℚ)))

/-! ## Business-rule guardrail — `src/src/guardrails/Guardrails.ts`,
`BusinessLogicGuardrail.validate` (lines 120-157) -/

/-- `ValidationResult { valid, reason? }`. -/
structure ValidationResult where
  valid : Bool
  reason : Option String
deriving DecidableEq, Repr

/-- `BusinessLogicGuardrail.validate` on a `DebtOptimizeInput` payload.
Such a payload has no `amount` or `total` field, so only the debts-array
checks (lines 130-144) can fire; an empty JavaScript array is truthy, so
the length check is reached even for `[]`. -/
def businessLogicValidateDebts (debts : List Debt) : ValidationResult :=
  if debts.length = 0 then ⟨false, some "At least one debt is required"⟩
  else if 1000 < debts.length then ⟨false, some "Too many debts (max 1000)"⟩
  else ⟨true, none⟩

/-! ## Circular-debt detection — `DebtOptimizerAgent.detectCircularDebts`
(lines 190-248) -/

/-- A debt edge decorated with its index in the original list
(`{ ...debt, index }`). -/
structure IdxDebt where
  from' : String
  to' : String
  amount : ℚ
  index : ℕ
deriving DecidableEq, Repr

/-- Append an edge to a person's adjacency list, creating the key on first
use (lines 198-204). -/
def graphPush : List (String × List IdxDebt) → String → IdxDebt → List (String × List IdxDebt)
  | [], k, e => [(k, [e])]
  | (k', es) :: rest, k, e =>
    if k' = k then (k', es ++ [e]) :: rest else (k', es) :: graphPush rest k e

/-- Build the adjacency list in debt order. -/
def buildGraph (debts : List Debt) : List (String × List IdxDebt) :=
  (debts.enum).foldl (fun g ie =>
    graphPush g ie.2.from' ⟨ie.2.from', ie.2.to', ie.2.amount, ie.1⟩) []

/-- `graph.get(person) || []`. -/
def graphEdges (g : List (String × List IdxDebt)) (p : String) : List IdxDebt :=
  (((g.find? (fun e => e.1 == p)).map Prod.snd).getD [])

/-- Mutable state of the DFS: the `visited` set and the collected cycles. -/
structure DfsSt where
  visited : List String
  circles : List (List IdxDebt)
deriving Repr

mutual

/-- The DFS of `detectCircularDebts` (lines 210-230).  `fuel` dominates the
recursion depth: every recursive call is made with the current person
freshly added to `visited`, so the depth never exceeds the number of
distinct persons plus one, and `detectCircularDebts` passes more fuel than
that.  The edge guard `!(edge.index) || !used.has(edge.index)` lets an
edge pass when its index is `0` (falsy) or not in `used`. -/
def dfsVisit (g : List (String × List IdxDebt)) (used : List ℕ) (start : String) :
    ℕ → String → List IdxDebt → DfsSt → DfsSt
  | 0, _, _, st => st
  | fuel + 1, person, path, st =>
    if st.visited.contains person then
      if person = start ∧ 3 ≤ path.length then
        { st with circles := st.circles ++ [path] }
      else st
    else
      let st1 : DfsSt := { st with visited := st.visited ++ [person] }
      let st2 := dfsEdgeLoop g used start fuel person path (graphEdges g person) st1
      { st2 with visited := st2.visited.erase person }

/-- The `for (const edge of edges)` loop inside the DFS (lines 221-227). -/
def dfsEdgeLoop (g : List (String × List IdxDebt)) (used : List ℕ) (start : String) :
    ℕ → String → List IdxDebt → List IdxDebt → DfsSt → DfsSt
  | _, _, _, [], st => st
  | fuel, person, path, e :: es, st =>
    let st' := if e.index = 0 ∨ ¬ used.contains e.index
      then dfsVisit g used start fuel e.to' (path ++ [e]) st
      else st
    dfsEdgeLoop g used start fuel person path es st'

end

/-- `detectCircularDebts` (lines 190-248): run the DFS from every node of
the graph (detection happens with an empty `used` set; `used` is populated
only afterwards, from the found cycles), then split the debts into the
cycle-participating ones and the remainder. -/
def detectCircularDebts (debts : List Debt) :
    List (List IdxDebt) × List Debt :=
  let g := buildGraph debts
  let fuel := 2 * debts.length + 2
  let st := g.foldl (fun st e => dfsVisit g [] e.1 fuel e.1 [] st) ⟨[], []⟩
  let used := (st.circles.flatten).map (fun e => e.index)
  let remaining := ((debts.enum).filter (fun ie => ¬ used.contains ie.1)).map Prod.snd
  (st.circles, remaining)

/-! ## Task Graph Orchestrator — `src/src/agents/base/AgentOrchestrator.ts` -/

/-- Opaque JavaScript values flowing through the orchestrator: a task's own
`input: any`, or the object `{ ...task.input, dependencies: {depId: output} }`
built by `prepareInput`. -/
inductive Payload where
  | raw : String → Payload
  | withDeps : Payload → List (String × Option Payload) → Payload

/-- `Task { id, type, input, dependencies? }`.  An absent `dependencies`
field and an empty array behave identically everywhere in the source
(an empty array is truthy and `[].every(..) === true`), so both are
modelled as `[]`. -/
structure OTask where
  id : String
  type : String
  input : Payload
  dependencies : List String

/-- `TaskResult { taskId, success, output?, error?, duration }`; wall-clock
durations are modelled as `0`. -/
structure TaskResult where
  taskId : String
  success : Bool
  output : Option Payload
  error : Option String
  duration : ℕ

/-- `OrchestrationResult { success, results, totalDuration, errors }`. -/
structure OrchestrationResult where
  success : Bool
  results : List TaskResult
  totalDuration : ℕ
  errors : List String

/-- `tasks.find(t => t.id === depId)`. -/
def findTask (tasks : List OTask) (i : String) : Option OTask :=
  tasks.find? (fun t => t.id == i)

/-- The error thrown by `topologicalSort` on a revisit of a "visiting"
node (line 159). -/
def circularMsg (i : String) : String :=
  "Circular dependency detected involving task " ++ i

/-- State threaded through the topological-sort DFS: the `visited` set and
the output `sorted` list (lines 151-153).  The source pushes to both
together (lines 174-175), so `visitedIds` always holds exactly the ids of
`sortedTasks`. -/
structure SortSt where
  visitedIds : List String
  sortedTasks : List OTask

/-- Strictness lemma used for the termination of the sort DFS. -/
theorem length_filter_lt_of_imp {α : Type} {p q : α → Bool} {l : List α}
    (himp : ∀ x, q x = true → p x = true) {a : α} (ha : a ∈ l)
    (hpa : p a = true) (hqa : q a = false) :
    (l.filter q).length < (l.filter p).length := by
  induction l with
  | nil => cases ha
  | cons b bs ih =>
    rcases List.mem_cons.mp ha with rfl | hb
    · have hle : (bs.filter q).length ≤ (bs.filter p).length :=
        (List.monotone_filter_right bs (fun x hx => himp x hx)).length_le
      simp only [List.filter_cons, hpa, hqa]
      simp only [Bool.false_eq_true, if_false, if_true]
      simpa using Nat.lt_succ_of_le hle
    · have := ih hb
      by_cases hp : p b = true
      · have hq2 := himp b
        by_cases hq : q b = true
        · simp only [List.filter_cons, hp, hq, if_true]
          simpa using this
        · simp only [List.filter_cons, hp, eq_false_of_ne_true hq, if_true]
          simp only [Bool.false_eq_true, if_false]
          simp only [List.length_cons]
          omega
      · have hq : q b = false := by
          rcases Bool.eq_false_or_eq_true (q b) with h | h
          · exact absurd (himp b h) hp
          · exact h
        simp only [List.filter_cons, eq_false_of_ne_true hp, hq]
        simp only [Bool.false_eq_true, if_false]
        exact this

mutual

/-- The `visit` closure of `topologicalSort` (lines 155-176), with the
mutable `visiting` set modelled as the list of ids on the current DFS call
stack (every ancestor call adds its id before recursing and removes it
after, so the set's contents are exactly the stack).  The membership proof
`ht` records that `visit` is only ever called on tasks of the input list
(directly in the top-level loop, or through `tasks.find`). -/
def visitT (tasks : List OTask) (visiting : List String) (st : SortSt)
    (t : OTask) (ht : t ∈ tasks) : Except String SortSt :=
  if st.visitedIds.contains t.id then .ok st
  else if hv : visiting.contains t.id then .error (circularMsg t.id)
  else
    match visitDeps tasks (t.id :: visiting) st t.dependencies with
    | .error e => .error e
    | .ok st' => .ok ⟨t.id :: st'.visitedIds, st'.sortedTasks ++ [t]⟩
termination_by ((tasks.filter (fun u => !visiting.contains u.id)).length, 0)
decreasing_by
  apply Prod.Lex.left
  refine length_filter_lt_of_imp ?_ ht ?_ ?_
  · intro x hx
    simp only [Bool.not_eq_true'] at hx ⊢
    simp only [List.contains_cons, Bool.or_eq_false_iff] at hx
    exact hx.2
  · simpa using hv
  · simp [List.contains_cons]

/-- The `for (const depId of task.dependencies)` loop inside `visit`
(lines 164-171): unresolvable dependency ids are skipped. -/
def visitDeps (tasks : List OTask) (visiting : List String) (st : SortSt) :
    List String → Except String SortSt
  | [] => .ok st
  | d :: ds =>
    match hf : findTask tasks d with
    | none => visitDeps tasks visiting st ds
    | some td =>
      match visitT tasks visiting st td (List.mem_of_find?_eq_some hf) with
      | .error e => .error e
      | .ok st' => visitDeps tasks visiting st' ds
termination_by ds => ((tasks.filter (fun u => !visiting.contains u.id)).length, ds.length + 1)
decreasing_by
  all_goals apply Prod.Lex.right
  all_goals simp only [List.length_cons]
  all_goals omega

end

/-- The top-level `for (const task of tasks) visit(task)` loop
(lines 178-180). -/
def visitAll (tasks : List OTask) : List {t // t ∈ tasks} → SortSt → Except String SortSt
  | [], st => .ok st
  | t :: ts, st =>
    match visitT tasks [] st t.1 t.2 with
    | .error e => .error e
    | .ok st' => visitAll tasks ts st'

/-- `AgentOrchestrator.topologicalSort` (lines 150-183). -/
def topologicalSort (tasks : List OTask) : Except String (List OTask) :=
  match visitAll tasks tasks.attach ⟨[], []⟩ with
  | .error e => .error e
  | .ok st => .ok st.sortedTasks

/-- A registered agent's behaviour: the computation run by `agent.run`,
abstracted as a function from the prepared input to a result or a thrown
error. -/
abbrev AgentFn := Payload → Except String Payload

/-- `task.dependencies.every(depId => result && result.success)`; vacuously
true when there are no dependencies, matching both the absent-field and
empty-array cases of the source. -/
def depsMet (results : List (String × TaskResult)) (t : OTask) : Bool :=
  t.dependencies.all (fun depId =>
    match mapGet results depId with
    | some r => r.success
    | none => false)

/-- `AgentOrchestrator.prepareInput` (lines 127-145). -/
def prepareInput (results : List (String × TaskResult)) (t : OTask) : Payload :=
  if t.dependencies.isEmpty then t.input
  else Payload.withDeps t.input (t.dependencies.filterMap (fun depId =>
    match mapGet results depId with
    | some r => if r.success then some (depId, r.output) else none
    | none => none))

/-- The body of one iteration of the task loop of `execute` (lines 57-102):
dependency check, agent lookup, agent invocation; any thrown error is
caught and recorded as a failed `TaskResult`.  Also returns the list of
agent invocations the iteration performed (tagged `(taskId, type, input)`),
so that theorems can speak about which agents ran. -/
def runStep (agents : List (String × AgentFn)) (results : List (String × TaskResult))
    (t : OTask) : TaskResult × List (String × String × Payload) :=
  if ¬ depsMet results t then
    (⟨t.id, false, none, some ("Dependencies not satisfied for task " ++ t.id), 0⟩, [])
  else
    match mapGet agents t.type with
    | none => (⟨t.id, false, none, some ("No agent registered for type: " ++ t.type), 0⟩, [])
    | some ag =>
      let input := prepareInput results t
      match ag input with
      | .error m => (⟨t.id, false, none, some m, 0⟩, [(t.id, t.type, input)])
      | .ok out => (⟨t.id, true, some out, none, 0⟩, [(t.id, t.type, input)])

/-- The `for (const task of sorted)` loop of `execute` (lines 57-103),
threading the `results` map, the `errors` array and the invocation log. -/
def runTasks (agents : List (String × AgentFn)) :
    List OTask → List (String × TaskResult) → List String →
    List (String × String × Payload) →
    List (String × TaskResult) × List String × List (String × String × Payload)
  | [], results, errors, invs => (results, errors, invs)
  | t :: ts, results, errors, invs =>
    let step := runStep agents results t
    let errors' := if step.1.success then errors
      else errors ++ ["Task " ++ t.id ++ ": " ++ (step.1.error.getD "")]
    runTasks agents ts (mapSet results t.id step.1) errors' (invs ++ step.2)

/-- `AgentOrchestrator.execute` (lines 47-115): sort, then run each task,
isolating per-task failures; a `topologicalSort` throw propagates out of
`execute` (the outer `try` has only a `finally`).  The second component is
the full agent-invocation log. -/
def executeO (tasks : List OTask) (agents : List (String × AgentFn)) :
    Except String OrchestrationResult × List (String × String × Payload) :=
  match topologicalSort tasks with
  | .error e => (.error e, [])
  | .ok sorted =>
    let out := runTasks agents sorted [] [] []
    (.ok { success := out.2.1.isEmpty
           results := out.1.map Prod.snd
           totalDuration := 0
           errors := out.2.1 }, out.2.2)

/-- `findTask tasks a` declares `b` as a dependency. -/
def dependsNext (tasks : List OTask) (a b : String) : Bool :=
  match findTask tasks a with
  | some t => t.dependencies.contains b
  | none => false

/-- `c` is a cycle in the dependency graph over the submitted tasks: it is
nonempty and every id's task (resolved exactly as the source resolves
dependency ids, via `tasks.find`) declares the cyclically next id as a
dependency. -/
def isDepCycle (tasks : List OTask) (c : List String) : Bool :=
  !c.isEmpty && ((c.zip (c.rotate 1)).all (fun ab => dependsNext tasks ab.1 ab.2))

/-! ## Claim C10 — empty input -/

/-- C10: on an empty debt list (and any `minimumAmount`), the engine's run
returns successfully — `execute` does not raise and `validateOutput`
passes — with all-zero fields and an empty balances map; the rejection of
empty input lives only in the business-rule guardrail, which reports
"At least one debt is required". -/
theorem claim_C10 (minimumAmount : ℚ) :
    dOptRun [] minimumAmount =
      Except.ok { originalTransactions := 0, optimizedTransactions := 0,
                  transactions := [], saved := 0, totalAmount := 0, balances := [] } ∧
    businessLogicValidateDebts [] =
      { valid := false, reason := some "At least one debt is required" } := by
  constructor
  · rfl
  · rfl

/-! ## Claim C3 — the two-debtor scenario -/

/-- C3 (counterexample): for debts
`[{alice→bob, 29.15}, {charlie→bob, 29.15}]` with the default
`minimumAmount`, the balances map returned by `execute` records `0` for
bob — his `NetPosition` object is aliased into the creditors array and
mutated to its residual by `optimizeDebts` before `balances` is built —
so the balances map is not `{alice: -29.15, charlie: -29.15, bob: 58.30}`
as claimed. -/
theorem claim_C3_counterexample :
    mapGet (dOptExecute [⟨"alice", "bob", 29.15⟩, ⟨"charlie", "bob", 29.15⟩]
        defaultMinimumAmount).balances "bob" = some 0 ∧
    ¬ ((dOptExecute [⟨"alice", "bob", 29.15⟩, ⟨"charlie", "bob", 29.15⟩]
        defaultMinimumAmount).balances =
      [("alice", -29.15), ("bob", 58.30), ("charlie", -29.15)]) := by
  have h1 : calculateNetPositions [⟨"alice", "bob", 29.15⟩, ⟨"charlie", "bob", 29.15⟩] =
      [⟨"alice", -29.15⟩, ⟨"bob", 58.30⟩, ⟨"charlie", -29.15⟩] := by
    simp [calculateNetPositions, calcPositionsRaw, applyDebt, mapGet, mapSet]
    norm_num [roundTo, jsRound]
  have h2 : (dOptExecute [⟨"alice", "bob", 29.15⟩, ⟨"charlie", "bob", 29.15⟩]
      defaultMinimumAmount).balances =
      [("alice", -29.15), ("bob", 0), ("charlie", -29.15)] := by
    simp [dOptExecute, h1, optimizeDebtsM, sortByBalanceDesc, defaultMinimumAmount]
    norm_num [List.insertionSort, List.orderedInsert, optimizeLoopM, roundTo,
      jsRound, min_def, List.filter_cons, List.filter_nil, abs_of_nonneg,
      abs_of_nonpos, mapGet]
    try simp
    try norm_num [roundTo, jsRound]
  constructor
  · rw [h2]
    simp [mapGet]
  · rw [h2]
    intro hcontra
    have := congrArg (fun l => l.get? 1) hcontra
    simp at this
    norm_num at this

/-- C3 (amended): for debts `[{alice→bob, 29.15}, {charlie→bob, 29.15}]`
with the default `minimumAmount`, `execute` emits 2 transactions, but the
balances map is `{alice: -29.15, bob: 0, charlie: -29.15}`: the debtor
entries are the (copied, unmutated) net positions, while bob's aliased
creditor object has been mutated by `optimizeDebts` to its fully-settled
residual `0` — the spec's `58.30` is bob's pre-optimization position. -/
theorem claim_C3 :
    (dOptExecute [⟨"alice", "bob", 29.15⟩, ⟨"charlie", "bob", 29.15⟩]
        defaultMinimumAmount).optimizedTransactions = 2 ∧
    (dOptExecute [⟨"alice", "bob", 29.15⟩, ⟨"charlie", "bob", 29.15⟩]
        defaultMinimumAmount).balances =
      [("alice", -29.15), ("bob", 0), ("charlie", -29.15)] := by
  have h1 : calculateNetPositions [⟨"alice", "bob", 29.15⟩, ⟨"charlie", "bob", 29.15⟩] =
      [⟨"alice", -29.15⟩, ⟨"bob", 58.30⟩, ⟨"charlie", -29.15⟩] := by
    simp [calculateNetPositions, calcPositionsRaw, applyDebt, mapGet, mapSet]
    norm_num [roundTo, jsRound]
  constructor <;>
  · simp [dOptExecute, h1, optimizeDebtsM, sortByBalanceDesc, defaultMinimumAmount]
    norm_num [List.insertionSort, List.orderedInsert, optimizeLoopM, roundTo,
      jsRound, min_def, List.filter_cons, List.filter_nil, abs_of_nonneg,
      abs_of_nonpos, mapGet]
    try simp
    try norm_num [roundTo, jsRound]

/-! ## Claim C8 — transaction amount threshold -/

theorem roundTo_two_ge_cent {a : ℚ} (h : 1/100 ≤ a) : 1/100 ≤ roundTo a 2 := by
  have h1 := roundTo_two_mono h
  have h2 : roundTo (1/100 : ℚ) 2 = 1/100 := by
    have := roundTo_two_of_cents 1
    simpa using this
  rwa [h2] at h1

theorem optimizeLoop_nil (D : List NetPosition) : optimizeLoop [] D = [] := by
  rw [optimizeLoop]

theorem optimizeLoop_nil_right (c : NetPosition) (cs : List NetPosition) :
    optimizeLoop (c :: cs) [] = [] := by
  rw [optimizeLoop]

/-- One unfolding of the loop body, with the emitted-transaction prefix
factored out of the pointer-advance case split. -/
theorem optimizeLoop_cons_cons (c d : NetPosition) (cs ds : List NetPosition) :
    optimizeLoop (c :: cs) (d :: ds) =
      (if 1/100 ≤ min c.balance d.balance
        then [Transaction.mk d.person c.person (roundTo (min c.balance d.balance) 2)]
        else []) ++
      (if roundTo (c.balance - min c.balance d.balance) 2 = 0 then
        if roundTo (d.balance - min c.balance d.balance) 2 = 0 then
          optimizeLoop cs ds
        else
          optimizeLoop cs (⟨d.person, roundTo (d.balance - min c.balance d.balance) 2⟩ :: ds)
       else
        optimizeLoop (⟨c.person, roundTo (c.balance - min c.balance d.balance) 2⟩ :: cs) ds) := by
  rw [optimizeLoop]
  split_ifs <;> rfl

theorem optimizeLoopM_nil (D : List NetPosition) : optimizeLoopM [] D = ([], []) := by
  rw [optimizeLoopM]

theorem optimizeLoopM_nil_right (c : NetPosition) (cs : List NetPosition) :
    optimizeLoopM (c :: cs) [] = ([], c :: cs) := by
  rw [optimizeLoopM]

/-- One unfolding of the effectful loop body, with the emitted-transaction
prefix factored out of the pointer-advance case split. -/
theorem optimizeLoopM_cons_cons (c d : NetPosition) (cs ds : List NetPosition) :
    optimizeLoopM (c :: cs) (d :: ds) =
      if roundTo (c.balance - min c.balance d.balance) 2 = 0 then
        if roundTo (d.balance - min c.balance d.balance) 2 = 0 then
          ((if 1/100 ≤ min c.balance d.balance
             then [Transaction.mk d.person c.person (roundTo (min c.balance d.balance) 2)]
             else []) ++ (optimizeLoopM cs ds).1,
           ⟨c.person, roundTo (c.balance - min c.balance d.balance) 2⟩ :: (optimizeLoopM cs ds).2)
        else
          ((if 1/100 ≤ min c.balance d.balance
             then [Transaction.mk d.person c.person (roundTo (min c.balance d.balance) 2)]
             else []) ++
            (optimizeLoopM cs
              (⟨d.person, roundTo (d.balance - min c.balance d.balance) 2⟩ :: ds)).1,
           ⟨c.person, roundTo (c.balance - min c.balance d.balance) 2⟩ ::
            (optimizeLoopM cs
              (⟨d.person, roundTo (d.balance - min c.balance d.balance) 2⟩ :: ds)).2)
      else
        ((if 1/100 ≤ min c.balance d.balance
           then [Transaction.mk d.person c.person (roundTo (min c.balance d.balance) 2)]
           else []) ++
          (optimizeLoopM (⟨c.person, roundTo (c.balance - min c.balance d.balance) 2⟩ :: cs) ds).1,
         (optimizeLoopM (⟨c.person, roundTo (c.balance - min c.balance d.balance) 2⟩ :: cs) ds).2) := by
  rw [optimizeLoopM]

/-- The transactions component of the effectful loop is exactly
`optimizeLoop`. -/
theorem optimizeLoopM_fst (C D : List NetPosition) :
    (optimizeLoopM C D).1 = optimizeLoop C D := by
  induction C, D using optimizeLoopM.induct with
  | case1 D => rw [optimizeLoopM_nil, optimizeLoop_nil]
  | case2 c cs => rw [optimizeLoopM_nil_right, optimizeLoop_nil_right]
  | case3 c cs d ds amount cb db hcb hdb ih =>
    have hcb' : roundTo (c.balance - min c.balance d.balance) 2 = 0 := hcb
    have hdb' : roundTo (d.balance - min c.balance d.balance) 2 = 0 := hdb
    rw [optimizeLoopM_cons_cons, if_pos hcb', if_pos hdb',
      optimizeLoop_cons_cons, if_pos hcb', if_pos hdb']
    dsimp only
    rw [ih]
  | case4 c cs d ds amount cb db hcb hdb ih =>
    have hcb' : roundTo (c.balance - min c.balance d.balance) 2 = 0 := hcb
    have hdb' : ¬ roundTo (d.balance - min c.balance d.balance) 2 = 0 := hdb
    have ih' : (optimizeLoopM cs
        (⟨d.person, roundTo (d.balance - min c.balance d.balance) 2⟩ :: ds)).1 =
        optimizeLoop cs (⟨d.person, roundTo (d.balance - min c.balance d.balance) 2⟩ :: ds) := ih
    rw [optimizeLoopM_cons_cons, if_pos hcb', if_neg hdb',
      optimizeLoop_cons_cons, if_pos hcb', if_neg hdb']
    dsimp only
    rw [ih']
  | case5 c cs d ds amount cb hcb ih =>
    have hcb' : ¬ roundTo (c.balance - min c.balance d.balance) 2 = 0 := hcb
    have ih' : (optimizeLoopM
        (⟨c.person, roundTo (c.balance - min c.balance d.balance) 2⟩ :: cs) ds).1 =
        optimizeLoop (⟨c.person, roundTo (c.balance - min c.balance d.balance) 2⟩ :: cs) ds := ih
    rw [optimizeLoopM_cons_cons, if_neg hcb', optimizeLoop_cons_cons, if_neg hcb']
    dsimp only
    rw [ih']

/-- The transactions component of `optimizeDebtsM` is `optimizeDebts`. -/
theorem optimizeDebtsM_fst (netPositions : List NetPosition) :
    (optimizeDebtsM netPositions).1 = optimizeDebts netPositions := by
  unfold optimizeDebtsM optimizeDebts
  exact optimizeLoopM_fst _ _

/-- The transactions of `execute` on a nonempty debt list. -/
theorem dOptExecute_transactions (debts : List Debt) (minimumAmount : ℚ)
    (h : ¬ debts.length = 0) :
    (dOptExecute debts minimumAmount).transactions =
      optimizeDebts ((calculateNetPositions debts).filter
        (fun np => decide (minimumAmount ≤ |np.balance|))) := by
  unfold dOptExecute
  rw [if_neg h]
  exact optimizeDebtsM_fst _

/-- Every transaction emitted by the greedy loop has amount at least one
cent: the guard admits `amount ≥ 0.01` and the recorded amount
`roundTo amount 2` is monotone in `amount`. -/
theorem optimizeLoop_amount_ge (C D : List NetPosition) :
    ∀ t ∈ optimizeLoop C D, 1/100 ≤ t.amount := by
  induction C, D using optimizeLoop.induct with
  | case1 D => intro t ht; rw [optimizeLoop_nil] at ht; cases ht
  | case2 c cs => intro t ht; rw [optimizeLoop_nil_right] at ht; cases ht
  | case3 c cs d ds amount cb db hcb hdb ih =>
    have hcb' : roundTo (c.balance - min c.balance d.balance) 2 = 0 := hcb
    have hdb' : roundTo (d.balance - min c.balance d.balance) 2 = 0 := hdb
    intro t ht
    rw [optimizeLoop_cons_cons, if_pos hcb', if_pos hdb', List.mem_append] at ht
    rcases ht with ht | ht
    · by_cases hge : 1/100 ≤ min c.balance d.balance
      · rw [if_pos hge, List.mem_singleton] at ht
        subst ht
        exact roundTo_two_ge_cent hge
      · rw [if_neg hge] at ht; cases ht
    · exact ih t ht
  | case4 c cs d ds amount cb db hcb hdb ih =>
    have hcb' : roundTo (c.balance - min c.balance d.balance) 2 = 0 := hcb
    have hdb' : ¬ roundTo (d.balance - min c.balance d.balance) 2 = 0 := hdb
    intro t ht
    rw [optimizeLoop_cons_cons, if_pos hcb', if_neg hdb', List.mem_append] at ht
    rcases ht with ht | ht
    · by_cases hge : 1/100 ≤ min c.balance d.balance
      · rw [if_pos hge, List.mem_singleton] at ht
        subst ht
        exact roundTo_two_ge_cent hge
      · rw [if_neg hge] at ht; cases ht
    · exact ih t ht
  | case5 c cs d ds amount cb hcb ih =>
    have hcb' : ¬ roundTo (c.balance - min c.balance d.balance) 2 = 0 := hcb
    intro t ht
    rw [optimizeLoop_cons_cons, if_neg hcb', List.mem_append] at ht
    rcases ht with ht | ht
    · by_cases hge : 1/100 ≤ min c.balance d.balance
      · rw [if_pos hge, List.mem_singleton] at ht
        subst ht
        exact roundTo_two_ge_cent hge
      · rw [if_neg hge] at ht; cases ht
    · exact ih t ht

/-- C8 (counterexample): for the single debt `{a→b, 0.01}` and
`minimumAmount = 0`, the engine emits the transaction `{a→b, 0.01}`, whose
amount is not strictly greater than `0.01`; so not every emitted amount
exceeds `0.01`. -/
theorem claim_C8_counterexample :
    (dOptExecute [⟨"a", "b", 0.01⟩] 0).transactions = [⟨"a", "b", 0.01⟩] ∧
    ¬ (∀ t ∈ (dOptExecute [⟨"a", "b", 0.01⟩] 0).transactions, 0.01 < t.amount) := by
  have h1 : calculateNetPositions [⟨"a", "b", 0.01⟩] =
      [⟨"a", -0.01⟩, ⟨"b", 0.01⟩] := by
    simp [calculateNetPositions, calcPositionsRaw, applyDebt, mapGet, mapSet]
    norm_num [roundTo, jsRound]
  have h2 : (dOptExecute [⟨"a", "b", 0.01⟩] 0).transactions = [⟨"a", "b", 0.01⟩] := by
    simp [dOptExecute, h1, optimizeDebtsM, sortByBalanceDesc]
    norm_num [List.insertionSort, List.orderedInsert, optimizeLoopM, roundTo,
      jsRound, min_def, List.filter_cons, List.filter_nil, abs_of_nonneg,
      abs_of_nonpos]
  refine ⟨h2, fun hall => ?_⟩
  have := hall ⟨"a", "b", 0.01⟩ (by rw [h2]; exact List.mem_singleton_self _)
  norm_num at this

/-- C8 (amended): every transaction in the settlement output has amount at
least `0.01` (the source guard is `amount >= 0.01`, and rounding cannot
take an admitted amount below one cent); amounts *below* `0.01` are
dropped, but an amount of exactly one cent is emitted. -/
theorem claim_C8 (debts : List Debt) (minimumAmount : ℚ) :
    ∀ t ∈ (dOptExecute debts minimumAmount).transactions, 1/100 ≤ t.amount := by
  intro t ht
  by_cases h : debts.length = 0
  · unfold dOptExecute at ht
    rw [if_pos h] at ht
    cases ht
  · rw [dOptExecute_transactions debts minimumAmount h] at ht
    exact optimizeLoop_amount_ge _ _ t ht

/-- Witness for C8 at a concrete input. -/
theorem claim_C8_witness :
    (⟨"a", "b", 5⟩ : Transaction) ∈ (dOptExecute [⟨"a", "b", 5⟩] (1/2)).transactions ∧
    1/100 ≤ (Transaction.mk "a" "b" 5).amount := by
  have h1 : calculateNetPositions [⟨"a", "b", 5⟩] = [⟨"a", -5⟩, ⟨"b", 5⟩] := by
    simp [calculateNetPositions, calcPositionsRaw, applyDebt, mapGet, mapSet]
    norm_num [roundTo, jsRound]
  have hm : (⟨"a", "b", 5⟩ : Transaction) ∈ (dOptExecute [⟨"a", "b", 5⟩] (1/2)).transactions := by
    have h2 : (dOptExecute [⟨"a", "b", 5⟩] (1/2)).transactions = [⟨"a", "b", 5⟩] := by
      simp [dOptExecute, h1, optimizeDebtsM, sortByBalanceDesc]
      norm_num [List.insertionSort, List.orderedInsert, optimizeLoopM, roundTo,
        jsRound, min_def, List.filter_cons, List.filter_nil, abs_of_nonneg,
        abs_of_nonpos]
    rw [h2]
    exact List.mem_singleton_self _
  exact ⟨hm, claim_C8 [⟨"a", "b", 5⟩] (1/2) _ hm⟩

/-! ## Claim C2 — conservation of money -/

theorem mapGet_cons (e : String × ℚ) (rest : List (String × ℚ)) (k : String) :
    mapGet (e :: rest) k = if e.1 = k then some e.2 else mapGet rest k := by
  by_cases h : e.1 = k <;> simp [mapGet, List.find?_cons, h]

theorem sum_mapSet (m : List (String × ℚ)) (k : String) (v : ℚ) :
    ((mapSet m k v).map Prod.snd).sum = (m.map Prod.snd).sum - (mapGet m k).getD 0 + v := by
  induction m with
  | nil => simp [mapSet, mapGet]
  | cons e rest ih =>
    by_cases h : e.1 = k
    · simp only [mapSet, if_pos h, mapGet_cons, List.map_cons, List.sum_cons, h, if_true]
      simp
      ring
    · simp only [mapSet, if_neg h, mapGet_cons, List.map_cons, List.sum_cons, h, if_false]
      rw [ih]
      ring

/-- Each debt subtracts its amount from the debtor's balance and adds it to
the creditor's, so the total balance is unchanged. -/
theorem sum_applyDebt (m : List (String × ℚ)) (d : Debt) :
    ((applyDebt m d).map Prod.snd).sum = (m.map Prod.snd).sum := by
  unfold applyDebt
  rw [sum_mapSet, sum_mapSet]
  ring

theorem sum_calcPositionsRaw_aux (debts : List Debt) (m : List (String × ℚ)) :
    ((debts.foldl applyDebt m).map Prod.snd).sum = (m.map Prod.snd).sum := by
  induction debts generalizing m with
  | nil => simp
  | cons d rest ih =>
    simp only [List.foldl_cons]
    rw [ih, sum_applyDebt]

/-- The accumulated (pre-rounding) balances always sum to exactly `0`. -/
theorem sum_calcPositionsRaw (debts : List Debt) :
    ((calcPositionsRaw debts).map Prod.snd).sum = 0 := by
  unfold calcPositionsRaw
  rw [sum_calcPositionsRaw_aux]
  simp

theorem sum_roundTo_err (l : List ℚ) :
    |(l.map (fun q => roundTo q 2)).sum - l.sum| ≤ (l.length : ℚ) * (1/200) := by
  induction l with
  | nil => simp
  | cons q rest ih =>
    simp only [List.map_cons, List.sum_cons, List.length_cons]
    have h1 := abs_roundTo_two_sub_le q
    have step : roundTo q 2 + (rest.map (fun q => roundTo q 2)).sum - (q + rest.sum)
        = (roundTo q 2 - q) + ((rest.map (fun q => roundTo q 2)).sum - rest.sum) := by ring
    rw [step]
    calc |(roundTo q 2 - q) + ((rest.map (fun q => roundTo q 2)).sum - rest.sum)|
        ≤ |roundTo q 2 - q| + |(rest.map (fun q => roundTo q 2)).sum - rest.sum| := abs_add _ _
      _ ≤ 1/200 + (rest.length : ℚ) * (1/200) := add_le_add h1 ih
      _ = ((rest.length : ℚ) + 1) * (1/200) := by ring
      _ = (((rest.length + 1 : ℕ)) : ℚ) * (1/200) := by push_cast; ring

/-- C2: for every debt list, the per-party balances sum to exactly `0`
before the 2-decimal rounding step, and the returned (rounded) net
positions sum to `0` up to the accumulated rounding tolerance of half a
cent per party. -/
theorem claim_C2 (debts : List Debt) :
    ((calcPositionsRaw debts).map Prod.snd).sum = 0 ∧
    |((calculateNetPositions debts).map NetPosition.balance).sum| ≤
      ((calculateNetPositions debts).length : ℚ) * (1/200) := by
  refine ⟨sum_calcPositionsRaw debts, ?_⟩
  have h0 := sum_calcPositionsRaw debts
  have hmap : (calculateNetPositions debts).map NetPosition.balance =
      ((calcPositionsRaw debts).map Prod.snd).map (fun q => roundTo q 2) := by
    simp [calculateNetPositions, List.map_map]
  have hlen : (calculateNetPositions debts).length = ((calcPositionsRaw debts).map Prod.snd).length := by
    simp [calculateNetPositions]
  rw [hmap, hlen]
  have := sum_roundTo_err ((calcPositionsRaw debts).map Prod.snd)
  rwa [h0, sub_zero] at this

/-! ## Claim C4 — transaction-count bound -/

/-- Each loop iteration emits at most one transaction and consumes at
least one list entry, and the loop stops when either side is exhausted. -/
theorem optimizeLoop_length_le (C D : List NetPosition) :
    (optimizeLoop C D).length ≤ C.length + D.length - 1 := by
  induction C, D using optimizeLoop.induct with
  | case1 D => rw [optimizeLoop_nil]; simp
  | case2 c cs => rw [optimizeLoop_nil_right]; simp
  | case3 c cs d ds amount cb db hcb hdb ih =>
    have hcb' : roundTo (c.balance - min c.balance d.balance) 2 = 0 := hcb
    have hdb' : roundTo (d.balance - min c.balance d.balance) 2 = 0 := hdb
    rw [optimizeLoop_cons_cons, if_pos hcb', if_pos hdb', List.length_append]
    have hemit : (if 1/100 ≤ min c.balance d.balance
        then [Transaction.mk d.person c.person (roundTo (min c.balance d.balance) 2)]
        else []).length ≤ 1 := by
      split <;> simp
    simp only [List.length_cons]
    omega
  | case4 c cs d ds amount cb db hcb hdb ih =>
    have hcb' : roundTo (c.balance - min c.balance d.balance) 2 = 0 := hcb
    have hdb' : ¬ roundTo (d.balance - min c.balance d.balance) 2 = 0 := hdb
    have ih' : (optimizeLoop cs
        (⟨d.person, roundTo (d.balance - min c.balance d.balance) 2⟩ :: ds)).length ≤
        cs.length + (⟨d.person, roundTo (d.balance - min c.balance d.balance) 2⟩ :: ds :
          List NetPosition).length - 1 := ih
    rw [optimizeLoop_cons_cons, if_pos hcb', if_neg hdb', List.length_append]
    have hemit : (if 1/100 ≤ min c.balance d.balance
        then [Transaction.mk d.person c.person (roundTo (min c.balance d.balance) 2)]
        else []).length ≤ 1 := by
      split <;> simp
    simp only [List.length_cons] at ih' ⊢
    omega
  | case5 c cs d ds amount cb hcb ih =>
    have hcb' : ¬ roundTo (c.balance - min c.balance d.balance) 2 = 0 := hcb
    have ih' : (optimizeLoop
        (⟨c.person, roundTo (c.balance - min c.balance d.balance) 2⟩ :: cs) ds).length ≤
        (⟨c.person, roundTo (c.balance - min c.balance d.balance) 2⟩ :: cs :
          List NetPosition).length + ds.length - 1 := ih
    rw [optimizeLoop_cons_cons, if_neg hcb', List.length_append]
    have hemit : (if 1/100 ≤ min c.balance d.balance
        then [Transaction.mk d.person c.person (roundTo (min c.balance d.balance) 2)]
        else []).length ≤ 1 := by
      split <;> simp
    simp only [List.length_cons] at ih' ⊢
    omega

theorem filter_pos_add_filter_neg_length (l : List NetPosition) :
    (l.filter (fun np => decide (0 < np.balance))).length +
      (l.filter (fun np => decide (np.balance < 0))).length =
    (l.filter (fun np => decide (np.balance ≠ 0))).length := by
  induction l with
  | nil => simp
  | cons np rest ih =>
    simp only [List.filter_cons, decide_eq_true_eq]
    rcases lt_trichotomy np.balance 0 with h | h | h
    · have h1 : ¬ (0 < np.balance) := by linarith
      have h2 : np.balance ≠ 0 := ne_of_lt h
      rw [if_neg h1, if_pos h, if_pos h2]
      simp only [List.length_cons]
      omega
    · have h1 : ¬ (0 < np.balance) := by rw [h]; exact lt_irrefl 0
      have h2 : ¬ (np.balance < 0) := by rw [h]; exact lt_irrefl 0
      have h3 : ¬ (np.balance ≠ 0) := by simpa using h
      rw [if_neg h1, if_neg h2, if_neg h3]
      exact ih
    · have h1 : ¬ (np.balance < 0) := by linarith
      have h2 : np.balance ≠ 0 := ne_of_gt h
      rw [if_pos h, if_neg h1, if_pos h2]
      simp only [List.length_cons]
      omega

/-- C4: the number of transactions emitted by the greedy matching is at
most `max 0 (numberOfPartiesWithNonZeroBalance - 1)`, where the count is
over parties whose rounded net balance is nonzero. -/
theorem claim_C4 (debts : List Debt) (minimumAmount : ℚ) :
    (dOptExecute debts minimumAmount).optimizedTransactions ≤
      max 0 (((calculateNetPositions debts).filter
        (fun np => decide (np.balance ≠ 0))).length - 1) := by
  by_cases h : debts.length = 0
  · unfold dOptExecute
    simp [h]
  · have hcnt : (dOptExecute debts minimumAmount).optimizedTransactions =
        (optimizeDebts ((calculateNetPositions debts).filter
          (fun np => decide (minimumAmount ≤ |np.balance|)))).length := by
      unfold dOptExecute
      rw [if_neg h]
      show (optimizeDebtsM _).1.length = _
      rw [optimizeDebtsM_fst]
    rw [hcnt, max_eq_right (Nat.zero_le _)]
    simp only [optimizeDebts]
    set nps := calculateNetPositions debts with hnps
    set filtered := nps.filter (fun np => decide (minimumAmount ≤ |np.balance|)) with hf
    have hloop := optimizeLoop_length_le
      (sortByBalanceDesc (filtered.filter (fun np => decide (0 < np.balance))))
      (sortByBalanceDesc ((filtered.filter (fun np => decide (np.balance < 0))).map
        (fun np => ⟨np.person, -np.balance⟩)))
    have hsort1 : (sortByBalanceDesc (filtered.filter (fun np => decide (0 < np.balance)))).length =
        (filtered.filter (fun np => decide (0 < np.balance))).length := by
      simp [sortByBalanceDesc, List.length_insertionSort]
    have hsort2 : (sortByBalanceDesc ((filtered.filter (fun np => decide (np.balance < 0))).map
        (fun np => (⟨np.person, -np.balance⟩ : NetPosition)))).length =
        (filtered.filter (fun np => decide (np.balance < 0))).length := by
      simp [sortByBalanceDesc, List.length_insertionSort]
    have hsum := filter_pos_add_filter_neg_length filtered
    have hmono : (filtered.filter (fun np => decide (np.balance ≠ 0))).length ≤
        (nps.filter (fun np => decide (np.balance ≠ 0))).length := by
      have hsub : List.Sublist filtered nps := List.filter_sublist nps
      exact (hsub.filter _).length_le
    simp only [hsort1, hsort2] at hloop
    omega

/-! ## Claim C9 — circular-debt detection on the 3-party cycle -/

/-- C9 (counterexample): on the 3-party cycle the detector does *not*
return exactly one cycle — the same cycle is discovered once from each of
the three start nodes. -/
theorem claim_C9_counterexample :
    ¬ ((detectCircularDebts [⟨"A", "B", 10⟩, ⟨"B", "C", 10⟩, ⟨"C", "A", 10⟩]).1.length = 1) := by
  have h : (detectCircularDebts [⟨"A", "B", 10⟩, ⟨"B", "C", 10⟩, ⟨"C", "A", 10⟩]).1.length = 3 := by
    simp [detectCircularDebts, buildGraph, graphPush, graphEdges, dfsVisit,
      dfsEdgeLoop, List.enum, List.enumFrom, mapGet]
  omega

/-- C9 (amended): on the synthetic 3-party cycle the detector returns the
cycle three times — once per DFS start node, as the three rotations — and
the remaining-debt list is empty (every edge participates in a cycle and
is cancelled). -/
theorem claim_C9 :
    (detectCircularDebts [⟨"A", "B", 10⟩, ⟨"B", "C", 10⟩, ⟨"C", "A", 10⟩]).1 =
      [[⟨"A", "B", 10, 0⟩, ⟨"B", "C", 10, 1⟩, ⟨"C", "A", 10, 2⟩],
       [⟨"B", "C", 10, 1⟩, ⟨"C", "A", 10, 2⟩, ⟨"A", "B", 10, 0⟩],
       [⟨"C", "A", 10, 2⟩, ⟨"A", "B", 10, 0⟩, ⟨"B", "C", 10, 1⟩]] ∧
    (detectCircularDebts [⟨"A", "B", 10⟩, ⟨"B", "C", 10⟩, ⟨"C", "A", 10⟩]).2 = [] := by
  constructor <;>
    simp [detectCircularDebts, buildGraph, graphPush, graphEdges, dfsVisit,
      dfsEdgeLoop, List.enum, List.enumFrom, mapGet]

/-! ## Claim C7 — the Gini coefficient of the Fairness Scorer -/

theorem roundTo_zero (d : ℕ) : roundTo 0 d = 0 := by
  unfold roundTo jsRound
  norm_num

theorem roundTo_mono (d : ℕ) {a b : ℚ} (h : a ≤ b) : roundTo a d ≤ roundTo b d := by
  unfold roundTo
  have hpow : (0:ℚ) < 10 ^ d := by positivity
  have : jsRound (a * 10 ^ d) ≤ jsRound (b * 10 ^ d) :=
    jsRound_le_of_le (by nlinarith)
  rw [div_le_div_iff_of_pos_right hpow]
  exact_mod_cast this

theorem roundTo_one (d : ℕ) : roundTo 1 d = 1 := by
  unfold roundTo
  have h1 : (1:ℚ) * 10 ^ d = ((10 ^ d : ℤ) : ℚ) := by push_cast; ring
  rw [h1, jsRound_intCast]
  have hpow : ((10:ℚ)) ^ d ≠ 0 := by positivity
  push_cast
  field_simp

theorem pairAbsSum_perm {l l' : List ℚ} (h : List.Perm l l') : pairAbsSum l = pairAbsSum l' := by
  unfold pairAbsSum
  have hinner : ∀ a : ℚ, (l.map (fun b => |a - b|)).sum = (l'.map (fun b => |a - b|)).sum :=
    fun a => (h.map (fun b => |a - b|)).sum_eq
  calc (l.map (fun a => (l.map (fun b => |a - b|)).sum)).sum
      = (l.map (fun a => (l'.map (fun b => |a - b|)).sum)).sum := by
        exact congrArg List.sum (List.map_congr_left (fun a _ => hinner a))
    _ = (l'.map (fun a => (l'.map (fun b => |a - b|)).sum)).sum :=
        (h.map (fun a => (l'.map (fun b => |a - b|)).sum)).sum_eq

theorem sortAsc_perm (l : List ℚ) : List.Perm (sortAsc l) l :=
  List.perm_insertionSort _ l

theorem sortAsc_length (l : List ℚ) : (sortAsc l).length = l.length :=
  List.length_insertionSort _ l

theorem sortAsc_sum (l : List ℚ) : (sortAsc l).sum = l.sum :=
  (sortAsc_perm l).sum_eq

/-- The inner row bound: for `0 ≤ a` and nonnegative entries,
`Σ_b |a - b| ≤ n*a + Σ_b b`. -/
theorem absRow_le (a : ℚ) (ha : 0 ≤ a) (l : List ℚ) (hl : ∀ x ∈ l, 0 ≤ x) :
    (l.map (fun b => |a - b|)).sum ≤ l.length * a + l.sum := by
  induction l with
  | nil => simp
  | cons b rest ih =>
    have hb : 0 ≤ b := hl b (List.mem_cons_self b rest)
    have hrest : ∀ x ∈ rest, 0 ≤ x := fun x hx => hl x (List.mem_cons_of_mem b hx)
    have h1 : |a - b| ≤ a + b := by
      rw [abs_le]
      constructor <;> linarith
    simp only [List.map_cons, List.sum_cons, List.length_cons]
    have := ih hrest
    push_cast
    nlinarith

theorem sum_row_bound (l : List ℚ) (hl : ∀ x ∈ l, 0 ≤ x) :
    (l.map (fun a => (l.length : ℚ) * a + l.sum)).sum = 2 * l.length * l.sum := by
  have key : ∀ (c S : ℚ) (m : List ℚ),
      (m.map (fun a => c * a + S)).sum = c * m.sum + m.length * S := by
    intro c S m
    induction m with
    | nil => simp
    | cons x rest ih =>
      simp only [List.map_cons, List.sum_cons, List.length_cons, ih]
      push_cast
      ring
  rw [key]
  ring

/-- `Σ_i Σ_j |v_i - v_j| ≤ 2 n Σ v` for nonnegative values. -/
theorem pairAbsSum_le (l : List ℚ) (hl : ∀ x ∈ l, 0 ≤ x) :
    pairAbsSum l ≤ 2 * l.length * l.sum := by
  unfold pairAbsSum
  have h1 : (l.map (fun a => (l.map (fun b => |a - b|)).sum)).sum ≤
      (l.map (fun a => (l.length : ℚ) * a + l.sum)).sum :=
    List.sum_le_sum (fun a ha => absRow_le a (hl a ha) l hl)
  calc (l.map (fun a => (l.map (fun b => |a - b|)).sum)).sum
      ≤ (l.map (fun a => (l.length : ℚ) * a + l.sum)).sum := h1
    _ = 2 * l.length * l.sum := sum_row_bound l hl

theorem pairAbsSum_nonneg (l : List ℚ) : 0 ≤ pairAbsSum l := by
  unfold pairAbsSum
  apply List.sum_nonneg
  intro x hx
  simp only [List.mem_map] at hx
  obtain ⟨a, _, rfl⟩ := hx
  apply List.sum_nonneg
  intro y hy
  simp only [List.mem_map] at hy
  obtain ⟨b, _, rfl⟩ := hy
  exact abs_nonneg _

/-- The Gini coefficient returned by the scorer is exactly the spec's
formula rounded to 4 decimal places: sorting does not change the double
sum, the sum or the length. -/
theorem giniScoreCore_gini_eq (v : List ℚ) :
    (giniScoreCore v).giniCoefficient = roundTo (giniFormula v) 4 := by
  unfold giniScoreCore giniFormula
  by_cases h0 : v.length = 0
  · simp [h0, roundTo_zero]
  · rw [if_neg h0, if_neg h0]
    simp only []
    have hlen := sortAsc_length v
    have hsum := sortAsc_sum v
    have hpair := pairAbsSum_perm (sortAsc_perm v)
    rw [hlen, hsum, hpair]
    by_cases hm : v.sum / (v.length : ℚ) = 0
    · rw [if_pos hm, if_pos hm, roundTo_zero]
    · rw [if_neg hm, if_neg hm]
      ring_nf

theorem giniFormula_nonneg_le_one (v : List ℚ) (hv : ∀ x ∈ v, 0 ≤ x) :
    0 ≤ giniFormula v ∧ giniFormula v ≤ 1 := by
  unfold giniFormula
  by_cases h0 : v.length = 0
  · simp [h0]
  · rw [if_neg h0]
    by_cases hm : v.sum / (v.length : ℚ) = 0
    · simp [hm]
    · rw [if_neg hm]
      have hn : 0 < (v.length : ℚ) := by exact_mod_cast Nat.pos_of_ne_zero h0
      have hsum0 : 0 ≤ v.sum := List.sum_nonneg hv
      have hmean_pos : 0 < v.sum / (v.length : ℚ) :=
        lt_of_le_of_ne (div_nonneg hsum0 hn.le) (Ne.symm hm)
      have hden : 0 < 2 * (v.length : ℚ) ^ 2 * (v.sum / (v.length : ℚ)) := by positivity
      constructor
      · exact div_nonneg (pairAbsSum_nonneg v) hden.le
      · rw [div_le_one hden]
        have hle := pairAbsSum_le v hv
        have heq : 2 * (v.length : ℚ) ^ 2 * (v.sum / (v.length : ℚ)) =
            2 * (v.length : ℚ) * v.sum := by
          field_simp
          ring
        rw [heq]
        exact hle

theorem pairAbsSum_all_eq_zero (v : List ℚ) (h : ∀ x ∈ v, ∀ y ∈ v, x = y) :
    pairAbsSum v = 0 := by
  unfold pairAbsSum
  apply List.sum_eq_zero
  intro row hrow
  simp only [List.mem_map] at hrow
  obtain ⟨a, ha, rfl⟩ := hrow
  apply List.sum_eq_zero
  intro y hy
  simp only [List.mem_map] at hy
  obtain ⟨b, hb, rfl⟩ := hy
  rw [h a ha b hb]
  simp

/-- C7: over the absolute values `v` of an arbitrary balance list, the
Gini coefficient computed by the Fairness Scorer equals the spec formula
*rounded to 4 decimals*, is `0` on an empty list and when the mean is `0`,
always lies in `[0, 1]`, and is `0` whenever all magnitudes are equal. -/
theorem claim_C7 (balances : List ℚ) :
    (giniScoreCore (balances.map (fun b => |b|))).giniCoefficient =
      roundTo (giniFormula (balances.map (fun b => |b|))) 4 ∧
    0 ≤ (giniScoreCore (balances.map (fun b => |b|))).giniCoefficient ∧
    (giniScoreCore (balances.map (fun b => |b|))).giniCoefficient ≤ 1 ∧
    (balances = [] → (giniScoreCore (balances.map (fun b => |b|))).giniCoefficient = 0) ∧
    ((balances.map (fun b => |b|)).sum / ((balances.map (fun b => |b|)).length : ℚ) = 0 →
      (giniScoreCore (balances.map (fun b => |b|))).giniCoefficient = 0) ∧
    ((∀ x ∈ balances.map (fun b => |b|), ∀ y ∈ balances.map (fun b => |b|), x = y) →
      (giniScoreCore (balances.map (fun b => |b|))).giniCoefficient = 0) := by
  set v := balances.map (fun b => |b|) with hv
  have hnn : ∀ x ∈ v, 0 ≤ x := by
    intro x hx
    rw [hv] at hx
    simp only [List.mem_map] at hx
    obtain ⟨b, _, rfl⟩ := hx
    exact abs_nonneg b
  have heq := giniScoreCore_gini_eq v
  have hbounds := giniFormula_nonneg_le_one v hnn
  refine ⟨heq, ?_, ?_, ?_, ?_, ?_⟩
  · rw [heq]
    have := roundTo_mono 4 hbounds.1
    rwa [roundTo_zero] at this
  · rw [heq]
    have := roundTo_mono 4 hbounds.2
    rwa [roundTo_one] at this
  · intro hempty
    rw [heq]
    have : v.length = 0 := by rw [hv, hempty]; rfl
    unfold giniFormula
    rw [if_pos this, roundTo_zero]
  · intro hmean
    rw [heq]
    unfold giniFormula
    by_cases h0 : v.length = 0
    · rw [if_pos h0, roundTo_zero]
    · rw [if_neg h0, if_pos hmean, roundTo_zero]
  · intro hall
    rw [heq]
    have hz := pairAbsSum_all_eq_zero v hall
    unfold giniFormula
    by_cases h0 : v.length = 0
    · rw [if_pos h0, roundTo_zero]
    · rw [if_neg h0]
      by_cases hm : v.sum / (v.length : ℚ) = 0
      · rw [if_pos hm, roundTo_zero]
      · rw [if_neg hm, hz, zero_div, roundTo_zero]

/-- C7 (counterexample): for balances `[-1, -1, 2]` the scorer's Gini is
`0.1667`, the 4-decimal rounding of `1/6`, which differs from the exact
formula value `1/6`; so the returned coefficient does not *equal* the
spec's formula. -/
theorem claim_C7_counterexample :
    (giniScoreCore ([(-1 : ℚ), -1, 2].map (fun b => |b|))).giniCoefficient ≠
      giniFormula ([(-1 : ℚ), -1, 2].map (fun b => |b|)) := by
  have h1 : ([(-1 : ℚ), -1, 2].map (fun b => |b|)) = [1, 1, 2] := by
    norm_num
  rw [h1]
  have h2 : (giniScoreCore [(1:ℚ), 1, 2]).giniCoefficient = 1667/10000 := by
    simp [giniScoreCore, sortAsc, List.insertionSort, List.orderedInsert,
      pairAbsSum]
    norm_num [roundTo, jsRound]
  have h3 : giniFormula [(1:ℚ), 1, 2] = 1/6 := by
    simp [giniFormula, pairAbsSum]
    norm_num
  rw [h2, h3]
  norm_num

/-- Witness for C7: the implications of `claim_C7` instantiated at
concrete inputs. -/
theorem claim_C7_witness :
    (giniScoreCore (([] : List ℚ).map (fun b => |b|))).giniCoefficient = 0 ∧
    (giniScoreCore ([(2 : ℚ), -2].map (fun b => |b|))).giniCoefficient = 0 := by
  constructor
  · exact (claim_C7 []).2.2.2.1 rfl
  · apply (claim_C7 [2, -2]).2.2.2.2.2
    intro x hx y hy
    norm_num at hx hy
    rw [hx, hy]

/-! ## Claim C1 — balance preservation of the settlement output -/

theorem lookupBalance_eq_mapGet (m : List (String × ℚ)) (k : String) :
    lookupBalance m k = (mapGet m k).getD 0 := rfl

/-- `checkBalances` succeeds exactly when every checked entry is within the
`0.01` tolerance of its replayed balance. -/
theorem checkBalances_ok_iff (newB : List (String × ℚ)) (entries : List (String × ℚ)) :
    checkBalances newB entries = Except.ok () ↔
      ∀ pb ∈ entries, |pb.2 - lookupBalance newB pb.1| ≤ 1/100 := by
  induction entries with
  | nil => simp [checkBalances]
  | cons e rest ih =>
    obtain ⟨p, ob⟩ := e
    by_cases h : 1/100 < |ob - lookupBalance newB p|
    · simp only [checkBalances, if_pos h]
      constructor
      · intro hcontra; cases hcontra
      · intro hall
        exact absurd (hall (p, ob) (List.mem_cons_self _ _)) (by simpa using h)
    · simp only [checkBalances, if_neg h]
      rw [ih]
      constructor
      · intro hall pb hpb
        rcases List.mem_cons.mp hpb with rfl | hpb
        · simpa using le_of_not_lt h
        · exact hall pb hpb
      · intro hall pb hpb
        exact hall pb (List.mem_cons_of_mem _ hpb)

theorem mapGet_mapSet (m : List (String × ℚ)) (k k' : String) (v : ℚ) :
    mapGet (mapSet m k v) k' = if k = k' then some v else mapGet m k' := by
  induction m with
  | nil =>
    by_cases h : k = k' <;> simp [mapSet, mapGet, List.find?_cons, h]
  | cons e rest ih =>
    by_cases he : e.1 = k
    · by_cases h : k = k'
      · subst h
        simp [mapSet, if_pos he, mapGet, List.find?_cons]
      · have he' : e.1 ≠ k' := by rw [he]; exact h
        simp [mapSet, if_pos he, mapGet_cons, h, he']
    · by_cases h : k = k'
      · subst h
        simp only [mapSet, if_neg he, mapGet_cons, he, if_false]
        rw [ih]
        simp
      · simp only [mapSet, if_neg he, mapGet_cons]
        rw [ih]
        simp [h]

/-- Values stored by `applyDebt` stay integer cents when they start as
integer cents and the debt amount is integer cents. -/
theorem applyDebt_cents {m : List (String × ℚ)} {d : Debt}
    (hm : ∀ e ∈ m, isCents e.2) (hd : isCents d.amount) :
    ∀ e ∈ applyDebt m d, isCents e.2 := by
  have hget : ∀ (m' : List (String × ℚ)) (k : String), (∀ e ∈ m', isCents e.2) →
      isCents ((mapGet m' k).getD 0) := by
    intro m' k hm'
    unfold mapGet
    match hfind : m'.find? (fun e => e.1 == k) with
    | none => simpa [hfind] using isCents_zero
    | some e =>
      have he := List.mem_of_find?_eq_some hfind
      simpa [hfind] using hm' e he
  have hset : ∀ (m' : List (String × ℚ)) (k : String) (v : ℚ),
      (∀ e ∈ m', isCents e.2) → isCents v → ∀ e ∈ mapSet m' k v, isCents e.2 := by
    intro m' k v hm' hv
    induction m' with
    | nil => simpa [mapSet] using hv
    | cons e rest ih =>
      by_cases h : e.1 = k
      · simp only [mapSet, if_pos h]
        intro x hx
        rcases List.mem_cons.mp hx with rfl | hx
        · exact hv
        · exact hm' x (List.mem_cons_of_mem _ hx)
      · simp only [mapSet, if_neg h]
        intro x hx
        rcases List.mem_cons.mp hx with rfl | hx
        · exact hm' x (List.mem_cons_self _ _)
        · exact ih (fun y hy => hm' y (List.mem_cons_of_mem _ hy)) x hx
  unfold applyDebt
  apply hset
  · apply hset
    · exact hm
    · exact isCents_sub (hget m d.from' hm) hd
  · apply isCents_add _ hd
    apply hget
    apply hset
    · exact hm
    · exact isCents_sub (hget m d.from' hm) hd

/-- All accumulated balances are integer cents when all debt amounts are. -/
theorem calcPositionsRaw_cents {debts : List Debt}
    (h : ∀ d ∈ debts, isCents d.amount) :
    ∀ e ∈ calcPositionsRaw debts, isCents e.2 := by
  unfold calcPositionsRaw
  suffices haux : ∀ (m : List (String × ℚ)), (∀ e ∈ m, isCents e.2) →
      ∀ e ∈ debts.foldl applyDebt m, isCents e.2 by
    exact haux [] (by intro e he; cases he)
  induction debts with
  | nil => intro m hm; simpa using hm
  | cons d rest ih =>
    intro m hm
    simp only [List.foldl_cons]
    exact ih (fun x hx => h x (List.mem_cons_of_mem _ hx))
      (applyDebt m d) (applyDebt_cents hm (h d (List.mem_cons_self _ _)))

/-- With integer-cent amounts the final 2-decimal rounding of
`calculateNetPositions` is the identity. -/
theorem calculateNetPositions_of_cents {debts : List Debt}
    (h : ∀ d ∈ debts, isCents d.amount) :
    calculateNetPositions debts = (calcPositionsRaw debts).map (fun e => ⟨e.1, e.2⟩) := by
  unfold calculateNetPositions
  apply List.map_congr_left
  intro e he
  rw [roundTo_two_of_isCents (calcPositionsRaw_cents h e he)]

/-- `mapSet` either leaves the key list unchanged (update) or appends the
new key. -/
theorem mapSet_keys (m : List (String × ℚ)) (k : String) (v : ℚ) :
    (mapSet m k v).map Prod.fst =
      if k ∈ m.map Prod.fst then m.map Prod.fst else m.map Prod.fst ++ [k] := by
  induction m with
  | nil => simp [mapSet]
  | cons e rest ih =>
    by_cases h : e.1 = k
    · simp [mapSet, if_pos h, h]
    · have h2 : ¬ k = e.1 := fun hk => h hk.symm
      by_cases hr : k ∈ rest.map Prod.fst
      · simp only [mapSet, if_neg h, List.map_cons, ih, if_pos hr]
        simp [List.mem_cons, h2, hr]
      · simp only [mapSet, if_neg h, List.map_cons, ih, if_neg hr]
        simp [List.mem_cons, h2, hr]

theorem mapSet_keys_nodup {m : List (String × ℚ)} (h : (m.map Prod.fst).Nodup)
    (k : String) (v : ℚ) : ((mapSet m k v).map Prod.fst).Nodup := by
  rw [mapSet_keys]
  by_cases hk : k ∈ m.map Prod.fst
  · rwa [if_pos hk]
  · rw [if_neg hk]
    refine List.Nodup.append h (List.nodup_singleton k) ?_
    intro a ha hak
    simp only [List.mem_singleton] at hak
    subst hak
    exact hk ha

theorem calcPositionsRaw_keys_nodup (debts : List Debt) :
    ((calcPositionsRaw debts).map Prod.fst).Nodup := by
  unfold calcPositionsRaw
  suffices haux : ∀ (m : List (String × ℚ)), (m.map Prod.fst).Nodup →
      ((debts.foldl applyDebt m).map Prod.fst).Nodup by
    exact haux [] (by simp)
  induction debts with
  | nil => intro m hm; simpa using hm
  | cons d rest ih =>
    intro m hm
    simp only [List.foldl_cons]
    apply ih
    unfold applyDebt
    exact mapSet_keys_nodup (mapSet_keys_nodup hm _ _) _ _

/-- Total balance assigned to person `p` by a list of net positions. -/
def npSum (l : List NetPosition) (p : String) : ℚ :=
  (l.map (fun np => if np.person = p then np.balance else 0)).sum

/-- Total amount received by `p` in a transaction list. -/
def tInflow (T : List Transaction) (p : String) : ℚ :=
  (T.map (fun t => if t.to' = p then t.amount else 0)).sum

/-- Total amount paid by `p` in a transaction list. -/
def tOutflow (T : List Transaction) (p : String) : ℚ :=
  (T.map (fun t => if t.from' = p then t.amount else 0)).sum

/-- Total amount owed to `p` in a debt list. -/
def dInflow (D : List Debt) (p : String) : ℚ :=
  (D.map (fun d => if d.to' = p then d.amount else 0)).sum

/-- Total amount owed by `p` in a debt list. -/
def dOutflow (D : List Debt) (p : String) : ℚ :=
  (D.map (fun d => if d.from' = p then d.amount else 0)).sum

theorem mapGet_applyDebt (m : List (String × ℚ)) (d : Debt) (p : String) :
    (mapGet (applyDebt m d) p).getD 0 =
      (mapGet m p).getD 0 + (if d.to' = p then d.amount else 0)
        - (if d.from' = p then d.amount else 0) := by
  unfold applyDebt
  simp only [mapGet_mapSet]
  by_cases hto : d.to' = p
  · by_cases hfrom : d.from' = p
    · have : d.from' = d.to' := by rw [hto, hfrom]
      simp [hto, hfrom, this]
    · have : ¬ d.from' = d.to' := by rw [hto]; exact hfrom
      simp [hto, hfrom, this]
  · by_cases hfrom : d.from' = p
    · simp [hto, hfrom]
    · simp [hto, hfrom]

theorem mapGet_foldl_flow (D : List Debt) (m : List (String × ℚ)) (p : String) :
    (mapGet (D.foldl applyDebt m) p).getD 0 =
      (mapGet m p).getD 0 + dInflow D p - dOutflow D p := by
  induction D generalizing m with
  | nil => simp [dInflow, dOutflow]
  | cons d rest ih =>
    simp only [List.foldl_cons, dInflow, dOutflow, List.map_cons, List.sum_cons]
    rw [ih, mapGet_applyDebt]
    unfold dInflow dOutflow
    ring

/-- The accumulated balance of `p` is exactly inflow minus outflow. -/
theorem calcPositionsRaw_flow (D : List Debt) (p : String) :
    (mapGet (calcPositionsRaw D) p).getD 0 = dInflow D p - dOutflow D p := by
  unfold calcPositionsRaw
  rw [mapGet_foldl_flow]
  simp [mapGet]

theorem dInflow_map_toDebt (T : List Transaction) (p : String) :
    dInflow (T.map (fun t => Debt.mk t.from' t.to' t.amount)) p = tInflow T p := by
  unfold dInflow tInflow
  rw [List.map_map]
  rfl

theorem dOutflow_map_toDebt (T : List Transaction) (p : String) :
    dOutflow (T.map (fun t => Debt.mk t.from' t.to' t.amount)) p = tOutflow T p := by
  unfold dOutflow tOutflow
  rw [List.map_map]
  rfl

theorem npSum_cons (np : NetPosition) (l : List NetPosition) (p : String) :
    npSum (np :: l) p = (if np.person = p then np.balance else 0) + npSum l p := by
  simp [npSum]

theorem npSum_nil (p : String) : npSum [] p = 0 := rfl

theorem npSum_perm {l l' : List NetPosition} (h : List.Perm l l') (p : String) :
    npSum l p = npSum l' p :=
  (h.map _).sum_eq

theorem npSum_eq_zero_of_not_mem {l : List NetPosition} {p : String}
    (h : p ∉ l.map NetPosition.person) : npSum l p = 0 := by
  induction l with
  | nil => rfl
  | cons np rest ih =>
    simp only [List.map_cons, List.mem_cons] at h
    push_neg at h
    rw [npSum_cons, if_neg (fun hc => h.1 hc.symm), ih h.2, add_zero]

theorem npSum_map_neg (l : List NetPosition) (p : String) :
    npSum (l.map (fun np => ⟨np.person, -np.balance⟩)) p = -npSum l p := by
  induction l with
  | nil => simp [npSum]
  | cons np rest ih =>
    simp only [List.map_cons]
    rw [npSum_cons, npSum_cons, ih]
    by_cases h : np.person = p <;> (simp [h]; try ring)

theorem filter_persons_subset (q : NetPosition → Bool) (l : List NetPosition) :
    ∀ p ∈ (l.filter q).map NetPosition.person, p ∈ l.map NetPosition.person := by
  intro p hp
  simp only [List.mem_map] at hp ⊢
  obtain ⟨np, hnp, rfl⟩ := hp
  exact ⟨np, List.mem_of_mem_filter hnp, rfl⟩

/-- On a person-nodup list containing the entry `np₀`, the `p`-total of any
filtered sublist is `np₀.balance` if `np₀` passes the filter and `0`
otherwise. -/
theorem npSum_filter (q : NetPosition → Bool) (l : List NetPosition)
    (hnd : (l.map NetPosition.person).Nodup) (np₀ : NetPosition) (h₀ : np₀ ∈ l) :
    npSum (l.filter q) np₀.person = if q np₀ then np₀.balance else 0 := by
  induction l with
  | nil => cases h₀
  | cons a rest ih =>
    simp only [List.map_cons, List.nodup_cons] at hnd
    rcases List.mem_cons.mp h₀ with rfl | hmem
    · have hnot : np₀.person ∉ (rest.filter q).map NetPosition.person :=
        fun hc => hnd.1 (filter_persons_subset q rest _ hc)
      by_cases hq : q np₀ = true
      · rw [List.filter_cons_of_pos hq, npSum_cons, if_pos rfl,
          npSum_eq_zero_of_not_mem hnot, add_zero, if_pos hq]
      · rw [List.filter_cons_of_neg (by simpa using hq),
          npSum_eq_zero_of_not_mem hnot, if_neg hq]
    · have hne : a.person ≠ np₀.person := by
        intro hc
        exact hnd.1 (hc ▸ List.mem_map_of_mem NetPosition.person hmem)
      have ihv := ih hnd.2 hmem
      by_cases hq : q a = true
      · rw [List.filter_cons_of_pos hq, npSum_cons, if_neg hne, zero_add, ihv]
      · rw [List.filter_cons_of_neg (by simpa using hq), ihv]

/-- On a person-nodup list, the `p`-total of the list picks out exactly the
balance of the unique `p` entry. -/
theorem npSum_self (l : List NetPosition) (hnd : (l.map NetPosition.person).Nodup)
    (np₀ : NetPosition) (h₀ : np₀ ∈ l) : npSum l np₀.person = np₀.balance := by
  have h := npSum_filter (fun _ => true) l hnd np₀ h₀
  rwa [List.filter_true, if_pos rfl] at h

/-- Positive and negative entries together carry the whole balance sum
(zero entries contribute nothing). -/
theorem balance_sum_split (l : List NetPosition) :
    ((l.filter (fun np => decide (0 < np.balance))).map NetPosition.balance).sum +
    ((l.filter (fun np => decide (np.balance < 0))).map NetPosition.balance).sum =
    (l.map NetPosition.balance).sum := by
  induction l with
  | nil => simp
  | cons np rest ih =>
    simp only [List.filter_cons, decide_eq_true_eq, List.map_cons, List.sum_cons]
    rcases lt_trichotomy np.balance 0 with h | h | h
    · rw [if_neg (by linarith), if_pos h]
      simp only [List.map_cons, List.sum_cons]
      rw [← ih]
      ring
    · rw [if_neg (by rw [h]; exact lt_irrefl 0), if_neg (by rw [h]; exact lt_irrefl 0), h]
      rw [← ih]
      ring
    · rw [if_pos h, if_neg (by linarith)]
      simp only [List.map_cons, List.sum_cons]
      rw [← ih]
      ring

/-- Dropping only zero-balance entries does not change the balance sum. -/
theorem filtered_sum_eq (l : List NetPosition) (q : NetPosition → Bool)
    (hq : ∀ np ∈ l, q np = false → np.balance = 0) :
    ((l.filter q).map NetPosition.balance).sum = (l.map NetPosition.balance).sum := by
  induction l with
  | nil => simp
  | cons np rest ih =>
    have hrest := fun x hx => hq x (List.mem_cons_of_mem _ hx)
    by_cases h : q np = true
    · rw [List.filter_cons_of_pos h]
      simp only [List.map_cons, List.sum_cons]
      rw [ih hrest]
    · rw [List.filter_cons_of_neg (by simpa using h)]
      simp only [List.map_cons, List.sum_cons]
      rw [ih hrest, hq np (List.mem_cons_self _ _) (by simpa using h), zero_add]

theorem sum_map_neg_balance (l : List NetPosition) :
    ((l.map (fun np => (⟨np.person, -np.balance⟩ : NetPosition))).map NetPosition.balance).sum =
      -((l.map NetPosition.balance).sum) := by
  induction l with
  | nil => simp
  | cons np rest ih =>
    simp only [List.map_cons, List.sum_cons, ih]
    ring

/-- Any value produced by 2-decimal rounding is an integer number of
cents. -/
theorem roundTo_two_cents_value (q : ℚ) : isCents (roundTo q 2) :=
  isCents_iff.mpr ⟨jsRound (q * 10 ^ 2), by unfold roundTo; norm_num⟩

theorem tInflow_cons (t : Transaction) (T : List Transaction) (p : String) :
    tInflow (t :: T) p = (if t.to' = p then t.amount else 0) + tInflow T p := by
  simp [tInflow]

theorem tOutflow_cons (t : Transaction) (T : List Transaction) (p : String) :
    tOutflow (t :: T) p = (if t.from' = p then t.amount else 0) + tOutflow T p := by
  simp [tOutflow]

/-- Every amount emitted by the greedy loop is an integer number of cents
(it is a `roundTo _ 2` image). -/
theorem optimizeLoop_amount_cents (C D : List NetPosition) :
    ∀ t ∈ optimizeLoop C D, isCents t.amount := by
  induction C, D using optimizeLoop.induct with
  | case1 D => intro t ht; rw [optimizeLoop_nil] at ht; cases ht
  | case2 c cs => intro t ht; rw [optimizeLoop_nil_right] at ht; cases ht
  | case3 c cs d ds amount cb db hcb hdb ih =>
    have hcb' : roundTo (c.balance - min c.balance d.balance) 2 = 0 := hcb
    have hdb' : roundTo (d.balance - min c.balance d.balance) 2 = 0 := hdb
    intro t ht
    rw [optimizeLoop_cons_cons, if_pos hcb', if_pos hdb', List.mem_append] at ht
    rcases ht with ht | ht
    · by_cases hge : 1/100 ≤ min c.balance d.balance
      · rw [if_pos hge, List.mem_singleton] at ht
        subst ht
        exact roundTo_two_cents_value _
      · rw [if_neg hge] at ht; cases ht
    · exact ih t ht
  | case4 c cs d ds amount cb db hcb hdb ih =>
    have hcb' : roundTo (c.balance - min c.balance d.balance) 2 = 0 := hcb
    have hdb' : ¬ roundTo (d.balance - min c.balance d.balance) 2 = 0 := hdb
    intro t ht
    rw [optimizeLoop_cons_cons, if_pos hcb', if_neg hdb', List.mem_append] at ht
    rcases ht with ht | ht
    · by_cases hge : 1/100 ≤ min c.balance d.balance
      · rw [if_pos hge, List.mem_singleton] at ht
        subst ht
        exact roundTo_two_cents_value _
      · rw [if_neg hge] at ht; cases ht
    · exact ih t ht
  | case5 c cs d ds amount cb hcb ih =>
    have hcb' : ¬ roundTo (c.balance - min c.balance d.balance) 2 = 0 := hcb
    intro t ht
    rw [optimizeLoop_cons_cons, if_neg hcb', List.mem_append] at ht
    rcases ht with ht | ht
    · by_cases hge : 1/100 ≤ min c.balance d.balance
      · rw [if_pos hge, List.mem_singleton] at ht
        subst ht
        exact roundTo_two_cents_value _
      · rw [if_neg hge] at ht; cases ht
    · exact ih t ht

/-- The heart of balance preservation: on positive integer-cent creditor
and debtor lists of equal totals, the greedy loop's transactions route to
each person exactly their creditor total, and from each person exactly
their debtor total. -/
theorem optimizeLoop_flow (C D : List NetPosition) :
    (∀ np ∈ C, 0 < np.balance) → (∀ np ∈ D, 0 < np.balance) →
    (∀ np ∈ C, isCents np.balance) → (∀ np ∈ D, isCents np.balance) →
    (C.map NetPosition.balance).sum = (D.map NetPosition.balance).sum →
    ∀ p, tInflow (optimizeLoop C D) p = npSum C p ∧
         tOutflow (optimizeLoop C D) p = npSum D p := by
  induction C, D using optimizeLoop.induct with
  | case1 D =>
    intro _ hdpos _ _ hbal p
    rw [optimizeLoop_nil]
    have hD : D = [] := by
      by_contra hne
      have hpos : 0 < (D.map NetPosition.balance).sum := by
        apply List.sum_pos
        · intro x hx
          simp only [List.mem_map] at hx
          obtain ⟨np, hnp, rfl⟩ := hx
          exact hdpos np hnp
        · simpa using hne
      rw [← hbal] at hpos
      simp at hpos
    subst hD
    exact ⟨rfl, rfl⟩
  | case2 c cs =>
    intro hcpos _ _ _ hbal p
    exfalso
    have hpos : 0 < ((c :: cs).map NetPosition.balance).sum := by
      apply List.sum_pos
      · intro x hx
        simp only [List.mem_map] at hx
        obtain ⟨np, hnp, rfl⟩ := hx
        exact hcpos np hnp
      · simp
    rw [hbal] at hpos
    simp at hpos
  | case3 c cs d ds amount cb db hcb hdb ih =>
    intro hcpos hdpos hcc hdc hbal p
    have hc1 : isCents c.balance := hcc c (List.mem_cons_self _ _)
    have hd1 : isCents d.balance := hdc d (List.mem_cons_self _ _)
    have hmin : isCents (min c.balance d.balance) := isCents_min hc1 hd1
    have hcsub : isCents (c.balance - min c.balance d.balance) := isCents_sub hc1 hmin
    have hdsub : isCents (d.balance - min c.balance d.balance) := isCents_sub hd1 hmin
    have hcb' : roundTo (c.balance - min c.balance d.balance) 2 = 0 := hcb
    have hdb' : roundTo (d.balance - min c.balance d.balance) 2 = 0 := hdb
    have hceq : c.balance = min c.balance d.balance := by
      have h := hcb'
      rw [roundTo_two_of_isCents hcsub] at h
      linarith
    have hdeq : d.balance = min c.balance d.balance := by
      have h := hdb'
      rw [roundTo_two_of_isCents hdsub] at h
      linarith
    have hcd : c.balance = d.balance := hceq.trans hdeq.symm
    have hguard : 1/100 ≤ min c.balance d.balance := by
      rw [← hceq]
      exact one_cent_le_of_isCents_pos hc1 (hcpos c (List.mem_cons_self _ _))
    have hamt : roundTo (min c.balance d.balance) 2 = min c.balance d.balance :=
      roundTo_two_of_isCents hmin
    have ih' := ih
      (fun np hnp => hcpos np (List.mem_cons_of_mem _ hnp))
      (fun np hnp => hdpos np (List.mem_cons_of_mem _ hnp))
      (fun np hnp => hcc np (List.mem_cons_of_mem _ hnp))
      (fun np hnp => hdc np (List.mem_cons_of_mem _ hnp))
      (by
        simp only [List.map_cons, List.sum_cons] at hbal
        linarith)
    rw [optimizeLoop_cons_cons, if_pos hcb', if_pos hdb', if_pos hguard,
      List.singleton_append]
    constructor
    · rw [tInflow_cons, npSum_cons, (ih' p).1, hamt]
      dsimp only
      by_cases hp : c.person = p
      · rw [if_pos hp, if_pos hp, ← hceq]
      · rw [if_neg hp, if_neg hp]
    · rw [tOutflow_cons, npSum_cons, (ih' p).2, hamt]
      dsimp only
      by_cases hp : d.person = p
      · rw [if_pos hp, if_pos hp, ← hdeq]
      · rw [if_neg hp, if_neg hp]
  | case4 c cs d ds amount cb db hcb hdb ih =>
    intro hcpos hdpos hcc hdc hbal p
    have hc1 : isCents c.balance := hcc c (List.mem_cons_self _ _)
    have hd1 : isCents d.balance := hdc d (List.mem_cons_self _ _)
    have hmin : isCents (min c.balance d.balance) := isCents_min hc1 hd1
    have hcsub : isCents (c.balance - min c.balance d.balance) := isCents_sub hc1 hmin
    have hdsub : isCents (d.balance - min c.balance d.balance) := isCents_sub hd1 hmin
    have hcb' : roundTo (c.balance - min c.balance d.balance) 2 = 0 := hcb
    have hdb' : ¬ roundTo (d.balance - min c.balance d.balance) 2 = 0 := hdb
    have hceq : c.balance = min c.balance d.balance := by
      have h := hcb'
      rw [roundTo_two_of_isCents hcsub] at h
      linarith
    have hdbval : roundTo (d.balance - min c.balance d.balance) 2 =
        d.balance - min c.balance d.balance := roundTo_two_of_isCents hdsub
    have hdpos' : 0 < d.balance - min c.balance d.balance := by
      have hne : d.balance - min c.balance d.balance ≠ 0 := by
        intro hzero
        apply hdb'
        rw [hdbval, hzero]
      have hle : min c.balance d.balance ≤ d.balance := min_le_right _ _
      exact lt_of_le_of_ne (by linarith) (Ne.symm hne)
    have hguard : 1/100 ≤ min c.balance d.balance := by
      rw [← hceq]
      exact one_cent_le_of_isCents_pos hc1 (hcpos c (List.mem_cons_self _ _))
    have hamt : roundTo (min c.balance d.balance) 2 = min c.balance d.balance :=
      roundTo_two_of_isCents hmin
    have ih2 : (∀ np ∈ cs, 0 < np.balance) →
        (∀ np ∈ ((⟨d.person, roundTo (d.balance - min c.balance d.balance) 2⟩ : NetPosition) :: ds),
          0 < np.balance) →
        (∀ np ∈ cs, isCents np.balance) →
        (∀ np ∈ ((⟨d.person, roundTo (d.balance - min c.balance d.balance) 2⟩ : NetPosition) :: ds),
          isCents np.balance) →
        (cs.map NetPosition.balance).sum =
          (((⟨d.person, roundTo (d.balance - min c.balance d.balance) 2⟩ : NetPosition) :: ds).map
            NetPosition.balance).sum →
        ∀ p, tInflow (optimizeLoop cs
            ((⟨d.person, roundTo (d.balance - min c.balance d.balance) 2⟩ : NetPosition) :: ds)) p =
            npSum cs p ∧
          tOutflow (optimizeLoop cs
            ((⟨d.person, roundTo (d.balance - min c.balance d.balance) 2⟩ : NetPosition) :: ds)) p =
            npSum ((⟨d.person, roundTo (d.balance - min c.balance d.balance) 2⟩ : NetPosition) :: ds) p :=
      ih
    rw [hdbval] at ih2
    have ih' := ih2
      (fun np hnp => hcpos np (List.mem_cons_of_mem _ hnp))
      (by
        intro np hnp
        rcases List.mem_cons.mp hnp with rfl | hnp
        · exact hdpos'
        · exact hdpos np (List.mem_cons_of_mem _ hnp))
      (fun np hnp => hcc np (List.mem_cons_of_mem _ hnp))
      (by
        intro np hnp
        rcases List.mem_cons.mp hnp with rfl | hnp
        · exact hdsub
        · exact hdc np (List.mem_cons_of_mem _ hnp))
      (by
        simp only [List.map_cons, List.sum_cons] at hbal ⊢
        show (cs.map NetPosition.balance).sum =
          d.balance - min c.balance d.balance + (ds.map NetPosition.balance).sum
        linarith)
    rw [optimizeLoop_cons_cons, if_pos hcb', if_neg hdb', if_pos hguard,
      List.singleton_append, hdbval]
    constructor
    · rw [tInflow_cons, npSum_cons, (ih' p).1, hamt]
      dsimp only
      by_cases hp : c.person = p
      · rw [if_pos hp, if_pos hp, ← hceq]
      · rw [if_neg hp, if_neg hp]
    · rw [tOutflow_cons, (ih' p).2, npSum_cons, npSum_cons, hamt]
      dsimp only
      by_cases hp : d.person = p
      · rw [if_pos hp, if_pos hp, if_pos hp]
        ring
      · rw [if_neg hp, if_neg hp, if_neg hp]
        ring
  | case5 c cs d ds amount cb hcb ih =>
    intro hcpos hdpos hcc hdc hbal p
    have hc1 : isCents c.balance := hcc c (List.mem_cons_self _ _)
    have hd1 : isCents d.balance := hdc d (List.mem_cons_self _ _)
    have hmin : isCents (min c.balance d.balance) := isCents_min hc1 hd1
    have hcsub : isCents (c.balance - min c.balance d.balance) := isCents_sub hc1 hmin
    have hcb' : ¬ roundTo (c.balance - min c.balance d.balance) 2 = 0 := hcb
    have hcbval : roundTo (c.balance - min c.balance d.balance) 2 =
        c.balance - min c.balance d.balance := roundTo_two_of_isCents hcsub
    have hdeq : d.balance = min c.balance d.balance := by
      rcases min_choice c.balance d.balance with h | h
      · exfalso
        apply hcb'
        rw [hcbval, h, sub_self]
      · exact h.symm
    have hcpos' : 0 < c.balance - min c.balance d.balance := by
      have hne : c.balance - min c.balance d.balance ≠ 0 := by
        intro hzero
        apply hcb'
        rw [hcbval, hzero]
      have hle : min c.balance d.balance ≤ c.balance := min_le_left _ _
      exact lt_of_le_of_ne (by linarith) (Ne.symm hne)
    have hguard : 1/100 ≤ min c.balance d.balance := by
      rw [← hdeq]
      exact one_cent_le_of_isCents_pos hd1 (hdpos d (List.mem_cons_self _ _))
    have hamt : roundTo (min c.balance d.balance) 2 = min c.balance d.balance :=
      roundTo_two_of_isCents hmin
    have ih2 : (∀ np ∈ ((⟨c.person, roundTo (c.balance - min c.balance d.balance) 2⟩ : NetPosition) :: cs),
          0 < np.balance) →
        (∀ np ∈ ds, 0 < np.balance) →
        (∀ np ∈ ((⟨c.person, roundTo (c.balance - min c.balance d.balance) 2⟩ : NetPosition) :: cs),
          isCents np.balance) →
        (∀ np ∈ ds, isCents np.balance) →
        (((⟨c.person, roundTo (c.balance - min c.balance d.balance) 2⟩ : NetPosition) :: cs).map
            NetPosition.balance).sum = (ds.map NetPosition.balance).sum →
        ∀ p, tInflow (optimizeLoop
            ((⟨c.person, roundTo (c.balance - min c.balance d.balance) 2⟩ : NetPosition) :: cs) ds) p =
            npSum ((⟨c.person, roundTo (c.balance - min c.balance d.balance) 2⟩ : NetPosition) :: cs) p ∧
          tOutflow (optimizeLoop
            ((⟨c.person, roundTo (c.balance - min c.balance d.balance) 2⟩ : NetPosition) :: cs) ds) p =
            npSum ds p :=
      ih
    rw [hcbval] at ih2
    have ih' := ih2
      (by
        intro np hnp
        rcases List.mem_cons.mp hnp with rfl | hnp
        · exact hcpos'
        · exact hcpos np (List.mem_cons_of_mem _ hnp))
      (fun np hnp => hdpos np (List.mem_cons_of_mem _ hnp))
      (by
        intro np hnp
        rcases List.mem_cons.mp hnp with rfl | hnp
        · exact hcsub
        · exact hcc np (List.mem_cons_of_mem _ hnp))
      (fun np hnp => hdc np (List.mem_cons_of_mem _ hnp))
      (by
        simp only [List.map_cons, List.sum_cons] at hbal ⊢
        show c.balance - min c.balance d.balance + (cs.map NetPosition.balance).sum =
          (ds.map NetPosition.balance).sum
        linarith)
    rw [optimizeLoop_cons_cons, if_neg hcb', if_pos hguard, List.singleton_append, hcbval]
    constructor
    · rw [tInflow_cons, (ih' p).1, npSum_cons, npSum_cons, hamt]
      dsimp only
      by_cases hp : c.person = p
      · rw [if_pos hp, if_pos hp, if_pos hp]
        ring
      · rw [if_neg hp, if_neg hp, if_neg hp]
        ring
    · rw [tOutflow_cons, npSum_cons, (ih' p).2, hamt]
      dsimp only
      by_cases hp : d.person = p
      · rw [if_pos hp, if_pos hp, ← hdeq]
      · rw [if_neg hp, if_neg hp]

theorem calculateNetPositions_persons (debts : List Debt) :
    (calculateNetPositions debts).map NetPosition.person =
      (calcPositionsRaw debts).map Prod.fst := by
  unfold calculateNetPositions
  rw [List.map_map]
  rfl

theorem calculateNetPositions_persons_nodup (debts : List Debt) :
    ((calculateNetPositions debts).map NetPosition.person).Nodup := by
  rw [calculateNetPositions_persons]
  exact calcPositionsRaw_keys_nodup debts

theorem calculateNetPositions_balance_cents (debts : List Debt) :
    ∀ np ∈ calculateNetPositions debts, isCents np.balance := by
  intro np hnp
  unfold calculateNetPositions at hnp
  simp only [List.mem_map] at hnp
  obtain ⟨e, _, rfl⟩ := hnp
  exact roundTo_two_cents_value e.2

/-- With integer-cent amounts, the rounded net positions sum to exactly
zero. -/
theorem calculateNetPositions_sum_zero {debts : List Debt}
    (hcents : ∀ d ∈ debts, isCents d.amount) :
    ((calculateNetPositions debts).map NetPosition.balance).sum = 0 := by
  rw [calculateNetPositions_of_cents hcents, List.map_map]
  have : (NetPosition.balance ∘ fun e : String × ℚ => (⟨e.1, e.2⟩ : NetPosition)) = Prod.snd := rfl
  rw [this]
  exact sum_calcPositionsRaw debts

/-- `mapGet` after a cons, for arbitrary value types. -/
theorem mapGet_cons_poly {β : Type} (e : String × β) (rest : List (String × β)) (k : String) :
    mapGet (e :: rest) k = if e.1 = k then some e.2 else mapGet rest k := by
  by_cases h : e.1 = k <;> simp [mapGet, List.find?_cons, h]

/-- A key among the map's keys is found, and the found value is the value
of an entry with that key. -/
theorem mapGet_mem {β : Type} (m : List (String × β)) (k : String)
    (h : k ∈ m.map Prod.fst) : ∃ v, mapGet m k = some v ∧ (k, v) ∈ m := by
  induction m with
  | nil => simp at h
  | cons e rest ih =>
    by_cases he : e.1 = k
    · refine ⟨e.2, ?_, ?_⟩
      · rw [mapGet_cons_poly, if_pos he]
      · have hpair : (k, e.2) = e := by
          rw [← he]
        exact List.mem_cons.mpr (Or.inl hpair)
    · rw [List.map_cons] at h
      rcases List.mem_cons.mp h with h | h
      · exact absurd h.symm he
      · obtain ⟨v, hv, hmem⟩ := ih h
        refine ⟨v, ?_, List.mem_cons_of_mem _ hmem⟩
        rw [mapGet_cons_poly, if_neg he]
        exact hv

/-- A key absent from the map's keys is not found. -/
theorem mapGet_none {β : Type} (m : List (String × β)) (k : String)
    (h : k ∉ m.map Prod.fst) : mapGet m k = none := by
  induction m with
  | nil => rfl
  | cons e rest ih =>
    rw [List.map_cons] at h
    rw [mapGet_cons_poly, if_neg (fun hc => h (by rw [hc]; exact List.mem_cons_self _ _))]
    exact ih (fun hc => h (List.mem_cons_of_mem _ hc))

/-- Whatever mismatch `checkBalances` reports is a genuine entry of the
checked list: the reported original value is the entry's recorded balance,
the reported optimized value is the looked-up replayed balance, and the
two differ by more than the tolerance. -/
theorem checkBalances_err_spec (newB : List (String × ℚ)) :
    ∀ (entries : List (String × ℚ)) (m : BalanceMismatch),
      checkBalances newB entries = Except.error m →
      (m.person, m.original) ∈ entries ∧
      m.optimized = lookupBalance newB m.person ∧
      1/100 < |m.original - m.optimized| := by
  intro entries
  induction entries with
  | nil =>
    intro m hm
    simp only [checkBalances] at hm
    cases hm
  | cons e rest ih =>
    intro m hm
    obtain ⟨p, ob⟩ := e
    by_cases h : 1/100 < |ob - lookupBalance newB p|
    · simp only [checkBalances, if_pos h] at hm
      obtain rfl : (⟨p, ob, lookupBalance newB p⟩ : BalanceMismatch) = m := Except.error.inj hm
      exact ⟨List.mem_cons_self _ _, rfl, h⟩
    · simp only [checkBalances, if_neg h] at hm
      obtain ⟨hmem, hopt, hgt⟩ := ih m hm
      exact ⟨List.mem_cons_of_mem _ hmem, hopt, hgt⟩

/-- The final creditor states carry exactly the creditors' persons, in
order. -/
theorem optimizeLoopM_persons (C D : List NetPosition) :
    (optimizeLoopM C D).2.map NetPosition.person = C.map NetPosition.person := by
  induction C, D using optimizeLoopM.induct with
  | case1 D => rw [optimizeLoopM_nil]
  | case2 c cs => rw [optimizeLoopM_nil_right]
  | case3 c cs d ds amount cb db hcb hdb ih =>
    have hcb' : roundTo (c.balance - min c.balance d.balance) 2 = 0 := hcb
    have hdb' : roundTo (d.balance - min c.balance d.balance) 2 = 0 := hdb
    rw [optimizeLoopM_cons_cons, if_pos hcb', if_pos hdb']
    dsimp only
    rw [List.map_cons, ih, List.map_cons]
  | case4 c cs d ds amount cb db hcb hdb ih =>
    have hcb' : roundTo (c.balance - min c.balance d.balance) 2 = 0 := hcb
    have hdb' : ¬ roundTo (d.balance - min c.balance d.balance) 2 = 0 := hdb
    have ih' : (optimizeLoopM cs
        (⟨d.person, roundTo (d.balance - min c.balance d.balance) 2⟩ :: ds)).2.map
          NetPosition.person = cs.map NetPosition.person := ih
    rw [optimizeLoopM_cons_cons, if_pos hcb', if_neg hdb']
    dsimp only
    rw [List.map_cons, ih', List.map_cons]
  | case5 c cs d ds amount cb hcb ih =>
    have hcb' : ¬ roundTo (c.balance - min c.balance d.balance) 2 = 0 := hcb
    have ih' : (optimizeLoopM
        (⟨c.person, roundTo (c.balance - min c.balance d.balance) 2⟩ :: cs) ds).2.map
          NetPosition.person =
        ((⟨c.person, roundTo (c.balance - min c.balance d.balance) 2⟩ : NetPosition) :: cs).map
          NetPosition.person := ih
    rw [optimizeLoopM_cons_cons, if_neg hcb']
    dsimp only
    rw [ih', List.map_cons, List.map_cons]

/-- On positive integer-cent creditor and debtor lists with equal totals
(full settlement), the loop mutates every creditor object to balance `0`
by the time it exits. -/
theorem optimizeLoopM_residuals (C D : List NetPosition) :
    (∀ np ∈ C, 0 < np.balance) → (∀ np ∈ D, 0 < np.balance) →
    (∀ np ∈ C, isCents np.balance) → (∀ np ∈ D, isCents np.balance) →
    (C.map NetPosition.balance).sum = (D.map NetPosition.balance).sum →
    ∀ np ∈ (optimizeLoopM C D).2, np.balance = 0 := by
  induction C, D using optimizeLoopM.induct with
  | case1 D =>
    intro _ _ _ _ _ np hnp
    rw [optimizeLoopM_nil] at hnp
    cases hnp
  | case2 c cs =>
    intro hcpos _ _ _ hbal np hnp
    exfalso
    have hpos : 0 < ((c :: cs).map NetPosition.balance).sum := by
      apply List.sum_pos
      · intro x hx
        simp only [List.mem_map] at hx
        obtain ⟨np', hnp', rfl⟩ := hx
        exact hcpos np' hnp'
      · simp
    rw [hbal] at hpos
    simp at hpos
  | case3 c cs d ds amount cb db hcb hdb ih =>
    intro hcpos hdpos hcc hdc hbal np hnp
    have hc1 : isCents c.balance := hcc c (List.mem_cons_self _ _)
    have hd1 : isCents d.balance := hdc d (List.mem_cons_self _ _)
    have hmin : isCents (min c.balance d.balance) := isCents_min hc1 hd1
    have hcsub : isCents (c.balance - min c.balance d.balance) := isCents_sub hc1 hmin
    have hdsub : isCents (d.balance - min c.balance d.balance) := isCents_sub hd1 hmin
    have hcb' : roundTo (c.balance - min c.balance d.balance) 2 = 0 := hcb
    have hdb' : roundTo (d.balance - min c.balance d.balance) 2 = 0 := hdb
    have hceq : c.balance = min c.balance d.balance := by
      have h := hcb'
      rw [roundTo_two_of_isCents hcsub] at h
      linarith
    have hdeq : d.balance = min c.balance d.balance := by
      have h := hdb'
      rw [roundTo_two_of_isCents hdsub] at h
      linarith
    have ih' := ih
      (fun np hnp => hcpos np (List.mem_cons_of_mem _ hnp))
      (fun np hnp => hdpos np (List.mem_cons_of_mem _ hnp))
      (fun np hnp => hcc np (List.mem_cons_of_mem _ hnp))
      (fun np hnp => hdc np (List.mem_cons_of_mem _ hnp))
      (by
        simp only [List.map_cons, List.sum_cons] at hbal
        linarith)
    rw [optimizeLoopM_cons_cons, if_pos hcb', if_pos hdb'] at hnp
    dsimp only at hnp
    rcases List.mem_cons.mp hnp with rfl | hnp
    · exact hcb'
    · exact ih' np hnp
  | case4 c cs d ds amount cb db hcb hdb ih =>
    intro hcpos hdpos hcc hdc hbal np hnp
    have hc1 : isCents c.balance := hcc c (List.mem_cons_self _ _)
    have hd1 : isCents d.balance := hdc d (List.mem_cons_self _ _)
    have hmin : isCents (min c.balance d.balance) := isCents_min hc1 hd1
    have hcsub : isCents (c.balance - min c.balance d.balance) := isCents_sub hc1 hmin
    have hdsub : isCents (d.balance - min c.balance d.balance) := isCents_sub hd1 hmin
    have hcb' : roundTo (c.balance - min c.balance d.balance) 2 = 0 := hcb
    have hdb' : ¬ roundTo (d.balance - min c.balance d.balance) 2 = 0 := hdb
    have hceq : c.balance = min c.balance d.balance := by
      have h := hcb'
      rw [roundTo_two_of_isCents hcsub] at h
      linarith
    have hdbval : roundTo (d.balance - min c.balance d.balance) 2 =
        d.balance - min c.balance d.balance := roundTo_two_of_isCents hdsub
    have hdpos' : 0 < d.balance - min c.balance d.balance := by
      have hne : d.balance - min c.balance d.balance ≠ 0 := by
        intro hzero
        apply hdb'
        rw [hdbval, hzero]
      have hle : min c.balance d.balance ≤ d.balance := min_le_right _ _
      exact lt_of_le_of_ne (by linarith) (Ne.symm hne)
    have ih2 : (∀ np ∈ cs, 0 < np.balance) →
        (∀ np ∈ ((⟨d.person, roundTo (d.balance - min c.balance d.balance) 2⟩ : NetPosition) :: ds),
          0 < np.balance) →
        (∀ np ∈ cs, isCents np.balance) →
        (∀ np ∈ ((⟨d.person, roundTo (d.balance - min c.balance d.balance) 2⟩ : NetPosition) :: ds),
          isCents np.balance) →
        (cs.map NetPosition.balance).sum =
          (((⟨d.person, roundTo (d.balance - min c.balance d.balance) 2⟩ : NetPosition) :: ds).map
            NetPosition.balance).sum →
        ∀ np ∈ (optimizeLoopM cs
            ((⟨d.person, roundTo (d.balance - min c.balance d.balance) 2⟩ : NetPosition) :: ds)).2,
          np.balance = 0 :=
      ih
    rw [hdbval] at ih2
    have ih' := ih2
      (fun np hnp => hcpos np (List.mem_cons_of_mem _ hnp))
      (by
        intro np hnp
        rcases List.mem_cons.mp hnp with rfl | hnp
        · exact hdpos'
        · exact hdpos np (List.mem_cons_of_mem _ hnp))
      (fun np hnp => hcc np (List.mem_cons_of_mem _ hnp))
      (by
        intro np hnp
        rcases List.mem_cons.mp hnp with rfl | hnp
        · exact hdsub
        · exact hdc np (List.mem_cons_of_mem _ hnp))
      (by
        simp only [List.map_cons, List.sum_cons] at hbal ⊢
        show (cs.map NetPosition.balance).sum =
          d.balance - min c.balance d.balance + (ds.map NetPosition.balance).sum
        linarith)
    rw [optimizeLoopM_cons_cons, if_pos hcb', if_neg hdb'] at hnp
    dsimp only at hnp
    rw [hdbval] at hnp
    rcases List.mem_cons.mp hnp with rfl | hnp
    · exact hcb'
    · exact ih' np hnp
  | case5 c cs d ds amount cb hcb ih =>
    intro hcpos hdpos hcc hdc hbal np hnp
    have hc1 : isCents c.balance := hcc c (List.mem_cons_self _ _)
    have hd1 : isCents d.balance := hdc d (List.mem_cons_self _ _)
    have hmin : isCents (min c.balance d.balance) := isCents_min hc1 hd1
    have hcsub : isCents (c.balance - min c.balance d.balance) := isCents_sub hc1 hmin
    have hcb' : ¬ roundTo (c.balance - min c.balance d.balance) 2 = 0 := hcb
    have hcbval : roundTo (c.balance - min c.balance d.balance) 2 =
        c.balance - min c.balance d.balance := roundTo_two_of_isCents hcsub
    have hdeq : d.balance = min c.balance d.balance := by
      rcases min_choice c.balance d.balance with h | h
      · exfalso
        apply hcb'
        rw [hcbval, h, sub_self]
      · exact h.symm
    have hcpos' : 0 < c.balance - min c.balance d.balance := by
      have hne : c.balance - min c.balance d.balance ≠ 0 := by
        intro hzero
        apply hcb'
        rw [hcbval, hzero]
      have hle : min c.balance d.balance ≤ c.balance := min_le_left _ _
      exact lt_of_le_of_ne (by linarith) (Ne.symm hne)
    have ih2 : (∀ np ∈ ((⟨c.person, roundTo (c.balance - min c.balance d.balance) 2⟩ : NetPosition) :: cs),
          0 < np.balance) →
        (∀ np ∈ ds, 0 < np.balance) →
        (∀ np ∈ ((⟨c.person, roundTo (c.balance - min c.balance d.balance) 2⟩ : NetPosition) :: cs),
          isCents np.balance) →
        (∀ np ∈ ds, isCents np.balance) →
        (((⟨c.person, roundTo (c.balance - min c.balance d.balance) 2⟩ : NetPosition) :: cs).map
            NetPosition.balance).sum = (ds.map NetPosition.balance).sum →
        ∀ np ∈ (optimizeLoopM
            ((⟨c.person, roundTo (c.balance - min c.balance d.balance) 2⟩ : NetPosition) :: cs) ds).2,
          np.balance = 0 :=
      ih
    rw [hcbval] at ih2
    have ih' := ih2
      (by
        intro np hnp
        rcases List.mem_cons.mp hnp with rfl | hnp
        · exact hcpos'
        · exact hcpos np (List.mem_cons_of_mem _ hnp))
      (fun np hnp => hdpos np (List.mem_cons_of_mem _ hnp))
      (by
        intro np hnp
        rcases List.mem_cons.mp hnp with rfl | hnp
        · exact hcsub
        · exact hcc np (List.mem_cons_of_mem _ hnp))
      (fun np hnp => hdc np (List.mem_cons_of_mem _ hnp))
      (by
        simp only [List.map_cons, List.sum_cons] at hbal ⊢
        show c.balance - min c.balance d.balance + (cs.map NetPosition.balance).sum =
          (ds.map NetPosition.balance).sum
        linarith)
    rw [optimizeLoopM_cons_cons, if_neg hcb'] at hnp
    dsimp only at hnp
    rw [hcbval] at hnp
    exact ih' np hnp

/-- C1 (amended): the claimed invariant is false of the program.  When
every debt amount is an integer number of cents and `minimumAmount`
forgives no party with a nonzero rounded balance, replaying the emitted
transactions does reproduce every party's *pre-optimization* net position
(exactly); but the `balances` object that `execute` returns is built after
`optimizeDebts` has mutated the aliased creditor `NetPosition` objects to
their fully-settled residual `0`, so each creditor is recorded at `0`.
`validateOutput` compares those recorded balances against the replay, and
therefore the run succeeds only when no party's balance exceeds one cent;
as soon as some creditor is owed more than `0.01`, the run throws a
balance mismatch naming a creditor, with original `0` and optimized equal
to that creditor's pre-optimization balance. -/
theorem claim_C1 (debts : List Debt) (minimumAmount : ℚ)
    (hcents : ∀ d ∈ debts, isCents d.amount)
    (hkeep : ∀ np ∈ calculateNetPositions debts,
      np.balance ≠ 0 → minimumAmount ≤ |np.balance|) :
    (∀ np ∈ calculateNetPositions debts,
      lookupBalance (replayedBalances (dOptExecute debts minimumAmount)) np.person
        = np.balance) ∧
    (dOptExecute debts minimumAmount).balances =
      (calculateNetPositions debts).map
        (fun np => (np.person, if 0 < np.balance then 0 else np.balance)) ∧
    ((∀ np ∈ calculateNetPositions debts, np.balance ≤ 1/100) →
      dOptRun debts minimumAmount = Except.ok (dOptExecute debts minimumAmount)) ∧
    ((∃ np ∈ calculateNetPositions debts, 1/100 < np.balance) →
      ∃ m : BalanceMismatch, dOptRun debts minimumAmount = Except.error m ∧
        ∃ np ∈ calculateNetPositions debts, m.person = np.person ∧
          m.original = 0 ∧ m.optimized = np.balance ∧ 1/100 < np.balance) := by
  by_cases h : debts.length = 0
  · have hdebts : debts = [] := List.length_eq_zero.mp h
    subst hdebts
    have hnil : calculateNetPositions ([] : List Debt) = [] := rfl
    refine ⟨?_, ?_, ?_, ?_⟩
    · intro np hnp
      rw [hnil] at hnp
      cases hnp
    · rfl
    · intro _
      rfl
    · rintro ⟨np, hnp, _⟩
      rw [hnil] at hnp
      cases hnp
  · -- names for the pipeline stages
    set nps := calculateNetPositions debts with hnps
    set filtered := nps.filter (fun np => decide (minimumAmount ≤ |np.balance|)) with hfiltered
    set creditors := sortByBalanceDesc (filtered.filter (fun np => decide (0 < np.balance)))
      with hcreditors
    set debtors := sortByBalanceDesc
      ((filtered.filter (fun np => decide (np.balance < 0))).map
        (fun np => (⟨np.person, -np.balance⟩ : NetPosition))) with hdebtors
    have htrans : (dOptExecute debts minimumAmount).transactions =
        optimizeLoop creditors debtors := by
      rw [dOptExecute_transactions debts minimumAmount h]
      rfl
    have hbalances : (dOptExecute debts minimumAmount).balances =
        (nps.map (fun np => (⟨np.person,
          (mapGet ((optimizeLoopM creditors debtors).2.map (fun c => (c.person, c.balance)))
            np.person).getD np.balance⟩ : NetPosition))).map
          (fun np => (np.person, roundTo np.balance 2)) := by
      unfold dOptExecute
      rw [if_neg h]
      rfl
    set T := optimizeLoop creditors debtors with hT
    -- structural facts about the positions
    have hnd : (nps.map NetPosition.person).Nodup := calculateNetPositions_persons_nodup debts
    have hbc : ∀ np ∈ nps, isCents np.balance := calculateNetPositions_balance_cents debts
    have hsum0 : (nps.map NetPosition.balance).sum = 0 := calculateNetPositions_sum_zero hcents
    have hkeep' : ∀ np ∈ nps, (decide (minimumAmount ≤ |np.balance|)) = false →
        np.balance = 0 := by
      intro np hnp hdec
      by_contra hb
      have := hkeep np hnp hb
      simp [this] at hdec
    have hfsum : (filtered.map NetPosition.balance).sum = 0 := by
      rw [hfiltered, filtered_sum_eq nps _ hkeep']
      exact hsum0
    -- the flow hypotheses
    have hmemC : ∀ np ∈ creditors, np ∈ filtered.filter (fun np => decide (0 < np.balance)) := by
      intro np hnp
      exact (List.perm_insertionSort _ _).mem_iff.mp hnp
    have hmemD : ∀ np ∈ debtors,
        np ∈ (filtered.filter (fun np => decide (np.balance < 0))).map
          (fun np => (⟨np.person, -np.balance⟩ : NetPosition)) := by
      intro np hnp
      exact (List.perm_insertionSort _ _).mem_iff.mp hnp
    have hcpos : ∀ np ∈ creditors, 0 < np.balance := by
      intro np hnp
      have := hmemC np hnp
      simp only [List.mem_filter, decide_eq_true_eq] at this
      exact this.2
    have hdpos : ∀ np ∈ debtors, 0 < np.balance := by
      intro np hnp
      have := hmemD np hnp
      simp only [List.mem_map, List.mem_filter, decide_eq_true_eq] at this
      obtain ⟨np', ⟨_, hneg⟩, rfl⟩ := this
      simpa using hneg
    have hccents : ∀ np ∈ creditors, isCents np.balance := by
      intro np hnp
      have h2 : np ∈ filtered := List.mem_of_mem_filter (hmemC np hnp)
      rw [hfiltered] at h2
      exact hbc np (List.mem_of_mem_filter h2)
    have hdcents : ∀ np ∈ debtors, isCents np.balance := by
      intro np hnp
      have := hmemD np hnp
      simp only [List.mem_map] at this
      obtain ⟨np', hnp', rfl⟩ := this
      have h2 : np' ∈ filtered := List.mem_of_mem_filter hnp'
      rw [hfiltered] at h2
      exact isCents_neg (hbc np' (List.mem_of_mem_filter h2))
    have hCD : (creditors.map NetPosition.balance).sum = (debtors.map NetPosition.balance).sum := by
      have hc : (creditors.map NetPosition.balance).sum =
          ((filtered.filter (fun np => decide (0 < np.balance))).map NetPosition.balance).sum :=
        ((List.perm_insertionSort _ _).map _).sum_eq
      have hd : (debtors.map NetPosition.balance).sum =
          (((filtered.filter (fun np => decide (np.balance < 0))).map
            (fun np => (⟨np.person, -np.balance⟩ : NetPosition))).map NetPosition.balance).sum :=
        ((List.perm_insertionSort _ _).map _).sum_eq
      rw [hc, hd, sum_map_neg_balance]
      have := balance_sum_split filtered
      rw [hfsum] at this
      linarith
    have hflow := optimizeLoop_flow creditors debtors hcpos hdpos hccents hdcents hCD
    have hres0 := optimizeLoopM_residuals creditors debtors hcpos hdpos hccents hdcents hCD
    have hpersM : (optimizeLoopM creditors debtors).2.map NetPosition.person =
        creditors.map NetPosition.person := optimizeLoopM_persons creditors debtors
    have hkeysM : ((optimizeLoopM creditors debtors).2.map
        (fun c => (c.person, c.balance))).map Prod.fst =
        creditors.map NetPosition.person := by
      rw [List.map_map]
      exact hpersM
    -- the replayed balances
    have hTcents : ∀ t ∈ T, isCents t.amount := optimizeLoop_amount_cents creditors debtors
    have hreplay : ∀ p, lookupBalance (replayedBalances (dOptExecute debts minimumAmount)) p =
        tInflow T p - tOutflow T p := by
      intro p
      unfold replayedBalances
      rw [htrans]
      have hTDcents : ∀ d ∈ T.map (fun t => Debt.mk t.from' t.to' t.amount), isCents d.amount := by
        intro d hd
        simp only [List.mem_map] at hd
        obtain ⟨t, ht, rfl⟩ := hd
        exact hTcents t ht
      rw [calculateNetPositions_of_cents hTDcents, List.map_map]
      have hcomp : ((fun np : NetPosition => (np.person, np.balance)) ∘
          (fun e : String × ℚ => (⟨e.1, e.2⟩ : NetPosition))) = id := rfl
      rw [hcomp, List.map_id, lookupBalance_eq_mapGet, calcPositionsRaw_flow,
        dInflow_map_toDebt, dOutflow_map_toDebt]
    -- part 1: the replay reproduces the pre-optimization positions exactly
    have hnp_replay : ∀ np ∈ nps,
        lookupBalance (replayedBalances (dOptExecute debts minimumAmount)) np.person
          = np.balance := by
      intro np₀ hnp₀
      rw [hreplay]
      have hin : tInflow T np₀.person = npSum creditors np₀.person := (hflow np₀.person).1
      have hout : tOutflow T np₀.person = npSum debtors np₀.person := (hflow np₀.person).2
      have hC : npSum creditors np₀.person =
          npSum (filtered.filter (fun np => decide (0 < np.balance))) np₀.person :=
        npSum_perm (List.perm_insertionSort _ _) _
      have hD : npSum debtors np₀.person =
          npSum ((filtered.filter (fun np => decide (np.balance < 0))).map
            (fun np => (⟨np.person, -np.balance⟩ : NetPosition))) np₀.person :=
        npSum_perm (List.perm_insertionSort _ _) _
      rw [hin, hout, hC, hD, npSum_map_neg]
      rw [hfiltered, List.filter_filter, List.filter_filter]
      rw [npSum_filter _ nps hnd np₀ hnp₀, npSum_filter _ nps hnd np₀ hnp₀]
      rcases lt_trichotomy np₀.balance 0 with hb | hb | hb
      · have hq : decide (minimumAmount ≤ |np₀.balance|) = true := by
          simp only [decide_eq_true_eq]
          exact hkeep np₀ hnp₀ (ne_of_lt hb)
        have h1 : (decide (0 < np₀.balance) && decide (minimumAmount ≤ |np₀.balance|)) = false := by
          simp [not_lt.mpr (le_of_lt hb)]
        have h2 : (decide (np₀.balance < 0) && decide (minimumAmount ≤ |np₀.balance|)) = true := by
          simp [hb, hq]
        rw [h1, h2]
        simp
      · have h1 : (decide (0 < np₀.balance) && decide (minimumAmount ≤ |np₀.balance|)) = false := by
          simp [hb]
        have h2 : (decide (np₀.balance < 0) && decide (minimumAmount ≤ |np₀.balance|)) = false := by
          simp [hb]
        rw [h1, h2, hb]
        simp
      · have hq : decide (minimumAmount ≤ |np₀.balance|) = true := by
          simp only [decide_eq_true_eq]
          exact hkeep np₀ hnp₀ (ne_of_gt hb)
        have h1 : (decide (0 < np₀.balance) && decide (minimumAmount ≤ |np₀.balance|)) = true := by
          simp [hb, hq]
        have h2 : (decide (np₀.balance < 0) && decide (minimumAmount ≤ |np₀.balance|)) = false := by
          simp [not_lt.mpr (le_of_lt hb)]
        rw [h1, h2]
        simp
    -- part 2: the recorded balances are the mutated positions
    have hbal2 : (dOptExecute debts minimumAmount).balances =
        nps.map (fun np => (np.person, if 0 < np.balance then 0 else np.balance)) := by
      rw [hbalances, List.map_map]
      apply List.map_congr_left
      intro np hnp
      simp only [Function.comp_apply]
      simp only [Prod.mk.injEq]
      refine ⟨trivial, ?_⟩
      by_cases hpos : 0 < np.balance
      · rw [if_pos hpos]
        have hfin : np ∈ filtered.filter (fun np => decide (0 < np.balance)) := by
          simp only [List.mem_filter, decide_eq_true_eq, hfiltered]
          exact ⟨⟨hnp, hkeep np hnp (ne_of_gt hpos)⟩, hpos⟩
        have hmemcr : np ∈ creditors :=
          (List.perm_insertionSort _ _).mem_iff.mpr hfin
        have hkey : np.person ∈ ((optimizeLoopM creditors debtors).2.map
            (fun c => (c.person, c.balance))).map Prod.fst := by
          rw [hkeysM]
          exact List.mem_map_of_mem _ hmemcr
        obtain ⟨b, hb, hbmem⟩ := mapGet_mem _ _ hkey
        have hb0 : b = 0 := by
          simp only [List.mem_map] at hbmem
          obtain ⟨c', hc', hpair⟩ := hbmem
          have hbal : c'.balance = b := congrArg Prod.snd hpair
          rw [← hbal]
          exact hres0 c' hc'
        rw [hb, Option.getD_some, hb0, roundTo_two_zero]
      · rw [if_neg hpos]
        have hnone : mapGet ((optimizeLoopM creditors debtors).2.map
            (fun c => (c.person, c.balance))) np.person = none := by
          apply mapGet_none
          rw [hkeysM]
          intro hc
          simp only [List.mem_map] at hc
          obtain ⟨c', hc', hpc⟩ := hc
          have h2 : c' ∈ filtered.filter (fun np => decide (0 < np.balance)) := hmemC c' hc'
          simp only [List.mem_filter, decide_eq_true_eq] at h2
          have h3 : c' ∈ nps := by
            have h4 : c' ∈ filtered := h2.1
            rw [hfiltered] at h4
            exact List.mem_of_mem_filter h4
          have hceq : c' = np := List.inj_on_of_nodup_map hnd h3 hnp hpc
          rw [hceq] at h2
          exact hpos h2.2
        rw [hnone, Option.getD_none]
        exact roundTo_two_of_isCents (hbc np hnp)
    -- part 3: success characterization
    have hpart3 : (∀ np ∈ nps, np.balance ≤ 1/100) →
        dOptRun debts minimumAmount = Except.ok (dOptExecute debts minimumAmount) := by
      intro hle
      have hvalid : validateOutput (dOptExecute debts minimumAmount) = Except.ok () := by
        unfold validateOutput
        rw [checkBalances_ok_iff]
        intro pb hpb
        rw [hbal2] at hpb
        simp only [List.mem_map] at hpb
        obtain ⟨np, hnp, rfl⟩ := hpb
        dsimp only
        rw [hnp_replay np hnp]
        by_cases hpos : 0 < np.balance
        · rw [if_pos hpos, zero_sub, abs_neg, abs_of_pos hpos]
          exact hle np hnp
        · rw [if_neg hpos]
          simp
      unfold dOptRun
      simp only [hvalid]
    -- part 4: failure characterization
    have hpart4 : (∃ np ∈ nps, 1/100 < np.balance) →
        ∃ m : BalanceMismatch, dOptRun debts minimumAmount = Except.error m ∧
          ∃ np ∈ nps, m.person = np.person ∧
            m.original = 0 ∧ m.optimized = np.balance ∧ 1/100 < np.balance := by
      rintro ⟨npw, hnpw, hgtw⟩
      have hposw : 0 < npw.balance := lt_trans (by norm_num) hgtw
      obtain ⟨m, hm⟩ : ∃ m, validateOutput (dOptExecute debts minimumAmount) =
          Except.error m := by
        cases hv : validateOutput (dOptExecute debts minimumAmount) with
        | error m => exact ⟨m, rfl⟩
        | ok u =>
          exfalso
          cases u
          unfold validateOutput at hv
          rw [checkBalances_ok_iff] at hv
          have hmem : ((npw.person, (0 : ℚ)) ∈ (dOptExecute debts minimumAmount).balances) := by
            rw [hbal2]
            refine List.mem_map.mpr ⟨npw, hnpw, ?_⟩
            rw [if_pos hposw]
          have hcl := hv (npw.person, 0) hmem
          dsimp only at hcl
          rw [hnp_replay npw hnpw, zero_sub, abs_neg, abs_of_pos hposw] at hcl
          exact absurd hgtw (not_lt.mpr hcl)
      have hspec := checkBalances_err_spec
        (replayedBalances (dOptExecute debts minimumAmount))
        (dOptExecute debts minimumAmount).balances m
        (by unfold validateOutput at hm; exact hm)
      obtain ⟨hmem, hopt, hgt2⟩ := hspec
      rw [hbal2] at hmem
      simp only [List.mem_map] at hmem
      obtain ⟨np, hnp, hpair⟩ := hmem
      simp only [Prod.mk.injEq] at hpair
      obtain ⟨hp1, hp2⟩ := hpair
      have hoptval : m.optimized = np.balance := by
        rw [hopt, ← hp1, hnp_replay np hnp]
      have hrun : dOptRun debts minimumAmount = Except.error m := by
        unfold dOptRun
        simp only [hm]
      by_cases hpos : 0 < np.balance
      · refine ⟨m, hrun, np, hnp, hp1.symm, ?_, hoptval, ?_⟩
        · rw [← hp2, if_pos hpos]
        · rw [← hp2, if_pos hpos] at hgt2
          rw [hoptval, zero_sub, abs_neg, abs_of_pos hpos] at hgt2
          exact hgt2
      · exfalso
        have horig : m.original = np.balance := by
          rw [← hp2, if_neg hpos]
        rw [horig, hoptval, sub_self, abs_zero] at hgt2
        norm_num at hgt2
    exact ⟨hnp_replay, hbal2, hpart3, hpart4⟩

/-- C1 (counterexample): for the single debt `{a→b, 0.3}` under the
default `minimumAmount = 0.5`, both parties are forgiven, no transaction
is emitted, and the balance-preservation check *fails*: `validateOutput`
throws the balance mismatch for `a` (original `-0.3`, optimized `0`) and
the whole run rejects.  So the engine's validation does not pass on every
output `execute` produces. -/
theorem claim_C1_counterexample :
    validateOutput (dOptExecute [⟨"a", "b", 0.3⟩] defaultMinimumAmount) =
      Except.error ⟨"a", -0.3, 0⟩ ∧
    dOptRun [⟨"a", "b", 0.3⟩] defaultMinimumAmount =
      Except.error ⟨"a", -0.3, 0⟩ := by
  have h1 : calculateNetPositions [⟨"a", "b", 0.3⟩] = [⟨"a", -0.3⟩, ⟨"b", 0.3⟩] := by
    simp [calculateNetPositions, calcPositionsRaw, applyDebt, mapGet, mapSet]
    norm_num [roundTo, jsRound]
  have h2 : dOptExecute [⟨"a", "b", 0.3⟩] defaultMinimumAmount =
      { originalTransactions := 1, optimizedTransactions := 0, transactions := [],
        saved := 1, totalAmount := 0, balances := [("a", -0.3), ("b", 0.3)] } := by
    simp [dOptExecute, h1, optimizeDebtsM, sortByBalanceDesc, defaultMinimumAmount]
    norm_num [List.insertionSort, List.orderedInsert, optimizeLoopM, roundTo,
      jsRound, min_def, List.filter_cons, List.filter_nil, abs_of_nonneg,
      abs_of_nonpos, mapGet]
    try simp
    try norm_num [roundTo, jsRound]
  have hval : validateOutput (dOptExecute [⟨"a", "b", 0.3⟩] defaultMinimumAmount) =
      Except.error ⟨"a", -0.3, 0⟩ := by
    rw [h2]
    simp [validateOutput, replayedBalances, calculateNetPositions, calcPositionsRaw,
      checkBalances, lookupBalance, mapGet]
    norm_num [abs_of_nonneg]
  refine ⟨hval, ?_⟩
  unfold dOptRun
  simp only [hval]

/-- Witness for C1 at a concrete input: one cent-denominated debt large
enough that nobody is forgiven; the replay reproduces the pre-optimization
positions, the recorded balances zero out the creditor, and the run
rejects with the mismatch for `b`. -/
theorem claim_C1_witness :
    (∀ np ∈ calculateNetPositions [⟨"a", "b", 1⟩],
      lookupBalance (replayedBalances (dOptExecute [⟨"a", "b", 1⟩] (1/2))) np.person
        = np.balance) ∧
    (dOptExecute [⟨"a", "b", 1⟩] (1/2)).balances =
      (calculateNetPositions [⟨"a", "b", 1⟩]).map
        (fun np => (np.person, if 0 < np.balance then 0 else np.balance)) ∧
    ((∀ np ∈ calculateNetPositions [⟨"a", "b", 1⟩], np.balance ≤ 1/100) →
      dOptRun [⟨"a", "b", 1⟩] (1/2) = Except.ok (dOptExecute [⟨"a", "b", 1⟩] (1/2))) ∧
    ((∃ np ∈ calculateNetPositions [⟨"a", "b", 1⟩], 1/100 < np.balance) →
      ∃ m : BalanceMismatch, dOptRun [⟨"a", "b", 1⟩] (1/2) = Except.error m ∧
        ∃ np ∈ calculateNetPositions [⟨"a", "b", 1⟩], m.person = np.person ∧
          m.original = 0 ∧ m.optimized = np.balance ∧ 1/100 < np.balance) := by
  have hcents : ∀ d ∈ ([⟨"a", "b", 1⟩] : List Debt), isCents d.amount := by
    intro d hd
    rw [List.mem_singleton] at hd
    subst hd
    exact isCents_iff.mpr ⟨100, by norm_num⟩
  have h1 : calculateNetPositions [⟨"a", "b", 1⟩] = [⟨"a", -1⟩, ⟨"b", 1⟩] := by
    simp [calculateNetPositions, calcPositionsRaw, applyDebt, mapGet, mapSet]
    norm_num [roundTo, jsRound]
  have hkeep : ∀ np ∈ calculateNetPositions [⟨"a", "b", 1⟩],
      np.balance ≠ 0 → (1/2 : ℚ) ≤ |np.balance| := by
    intro np hnp _
    rw [h1] at hnp
    rcases List.mem_cons.mp hnp with rfl | hnp
    · norm_num
    · rw [List.mem_singleton] at hnp
      subst hnp
      norm_num
  exact claim_C1 [⟨"a", "b", 1⟩] (1/2) hcents hkeep

/-! ## Claims C5 and C6 — the Task Graph Orchestrator -/

theorem findTask_some {tasks : List OTask} {i : String} {u : OTask}
    (h : findTask tasks i = some u) : u ∈ tasks ∧ u.id = i := by
  refine ⟨List.mem_of_find?_eq_some h, ?_⟩
  have := List.find?_some h
  simpa using this

/-- `dependsNext` unfolded. -/
theorem dependsNext_iff {tasks : List OTask} {a b : String} :
    dependsNext tasks a b = true ↔ ∃ u, findTask tasks a = some u ∧ b ∈ u.dependencies := by
  unfold dependsNext
  cases h : findTask tasks a with
  | none => simp
  | some u => simp [h]

/-- The invariant of the topological-sort DFS state: the `visited` set is
exactly the ids of the `sorted` output (pushed together, lines 174-175),
the output has no duplicate ids, every output entry is what `tasks.find`
resolves its id to, and every entry's resolvable dependencies appear
earlier in the output. -/
def GoodIdx (tasks : List OTask) (S : List OTask) : Prop :=
  ∀ n (hn : n < S.length), ∀ d ∈ (S.get ⟨n, hn⟩).dependencies,
    ∀ td, findTask tasks d = some td →
      ∃ m, ∃ hm : m < S.length, m < n ∧ S.get ⟨m, hm⟩ = td

def sortInv (tasks : List OTask) (st : SortSt) : Prop :=
  st.visitedIds = (st.sortedTasks.map OTask.id).reverse ∧
  (st.sortedTasks.map OTask.id).Nodup ∧
  (∀ u ∈ st.sortedTasks, findTask tasks u.id = some u) ∧
  GoodIdx tasks st.sortedTasks

theorem goodIdx_append {tasks : List OTask} {S : List OTask} {t : OTask}
    (hS : GoodIdx tasks S)
    (ht : ∀ d ∈ t.dependencies, ∀ td, findTask tasks d = some td → td ∈ S) :
    GoodIdx tasks (S ++ [t]) := by
  have hlen : (S ++ [t]).length = S.length + 1 := by simp
  intro n hn d hd td htd
  by_cases hlt : n < S.length
  · have hget : (S ++ [t]).get ⟨n, hn⟩ = S.get ⟨n, hlt⟩ := List.get_append_left _ _ _
    rw [hget] at hd
    obtain ⟨m, hm, hmn, hget'⟩ := hS n hlt d hd td htd
    have hm2 : m < (S ++ [t]).length := by omega
    refine ⟨m, hm2, hmn, ?_⟩
    have heq : (S ++ [t]).get ⟨m, hm2⟩ = S.get ⟨m, hm⟩ := List.get_append_left _ _ _
    rw [heq]
    exact hget'
  · have hn' : n = S.length := by omega
    have hget : (S ++ [t]).get ⟨n, hn⟩ = t := by
      subst hn'
      rw [List.get_append_right] <;> simp
    rw [hget] at hd
    obtain ⟨m, hget'⟩ := List.mem_iff_get.mp (ht d hd td htd)
    have hmS := m.2
    have hm2 : m.1 < (S ++ [t]).length := by omega
    refine ⟨m.1, hm2, by omega, ?_⟩
    have heq : (S ++ [t]).get ⟨m.1, hm2⟩ = S.get ⟨m.1, m.2⟩ := List.get_append_left _ _ _
    rw [heq]
    exact hget'

/-- Joint success specification of `visitT` and `visitDeps`: a successful
visit preserves the DFS invariant, only grows the visited set, marks the
visited task, and never adds an id that is on the current call stack. -/
theorem visit_ok_spec (tasks : List OTask) :
    (∀ (visiting : List String) (st : SortSt) (t : OTask) (ht : t ∈ tasks),
      ∀ st', visitT tasks visiting st t ht = Except.ok st' →
        sortInv tasks st →
        (findTask tasks t.id = some t ∨ t.id ∈ st.visitedIds) →
        sortInv tasks st' ∧ (∀ i ∈ st.visitedIds, i ∈ st'.visitedIds) ∧
          t.id ∈ st'.visitedIds ∧
          (∀ i ∈ st'.visitedIds, i ∈ st.visitedIds ∨ i ∉ visiting)) ∧
    (∀ (visiting : List String) (st : SortSt) (ds : List String),
      ∀ st', visitDeps tasks visiting st ds = Except.ok st' →
        sortInv tasks st →
        sortInv tasks st' ∧ (∀ i ∈ st.visitedIds, i ∈ st'.visitedIds) ∧
          (∀ d ∈ ds, ∀ td, findTask tasks d = some td → td.id ∈ st'.visitedIds) ∧
          (∀ i ∈ st'.visitedIds, i ∈ st.visitedIds ∨ i ∉ visiting)) := by
  refine visitT.mutual_induct tasks
    (fun visiting st t ht => ∀ st', visitT tasks visiting st t ht = Except.ok st' →
        sortInv tasks st →
        (findTask tasks t.id = some t ∨ t.id ∈ st.visitedIds) →
        sortInv tasks st' ∧ (∀ i ∈ st.visitedIds, i ∈ st'.visitedIds) ∧
          t.id ∈ st'.visitedIds ∧
          (∀ i ∈ st'.visitedIds, i ∈ st.visitedIds ∨ i ∉ visiting))
    (fun visiting st ds => ∀ st', visitDeps tasks visiting st ds = Except.ok st' →
        sortInv tasks st →
        sortInv tasks st' ∧ (∀ i ∈ st.visitedIds, i ∈ st'.visitedIds) ∧
          (∀ d ∈ ds, ∀ td, findTask tasks d = some td → td.id ∈ st'.visitedIds) ∧
          (∀ i ∈ st'.visitedIds, i ∈ st.visitedIds ∨ i ∉ visiting))
    ?_ ?_ ?_ ?_ ?_ ?_ ?_ ?_
  · -- already visited: immediate success with unchanged state
    intro visiting st t ht hcont st' hok hinv _
    rw [visitT, if_pos hcont] at hok
    cases hok
    refine ⟨hinv, fun i hi => hi, ?_, fun i hi => Or.inl hi⟩
    simpa using hcont
  · -- on the stack: the call errors, not succeeds
    intro visiting st t ht hcont hvis st' hok _ _
    rw [visitT, if_neg hcont, dif_pos hvis] at hok
    cases hok
  · -- dependency walk errors: the call errors, not succeeds
    intro visiting st t ht hcont hvis e hdeps _ st' hok _ _
    rw [visitT, if_neg hcont, dif_neg hvis] at hok
    simp only [hdeps] at hok
    cases hok
  · -- dependency walk succeeds: push the task
    intro visiting st t ht hcont hvis st'' hdeps ihdeps st' hok hinv hdisj
    rw [visitT, if_neg hcont, dif_neg hvis] at hok
    simp only [hdeps] at hok
    cases hok
    obtain ⟨hinv'', hmono'', hdepvis'', hfresh''⟩ := ihdeps st'' hdeps hinv
    have hfind : findTask tasks t.id = some t := by
      rcases hdisj with hfind | hmem
      · exact hfind
      · exact absurd (by simpa using hmem) hcont
    have htid_not : t.id ∉ st''.visitedIds := by
      intro hc
      rcases hfresh'' t.id hc with hin | hnv
      · exact hcont (by simpa using hin)
      · exact hnv (List.mem_cons_self _ _)
    have htid_ids : t.id ∉ st''.sortedTasks.map OTask.id := by
      intro hc
      apply htid_not
      rw [hinv''.1]
      simpa using hc
    obtain ⟨hrev'', hnd'', hres'', hgood''⟩ := hinv''
    refine ⟨⟨?_, ?_, ?_, ?_⟩, ?_, ?_, ?_⟩
    · show t.id :: st''.visitedIds = ((st''.sortedTasks ++ [t]).map OTask.id).reverse
      rw [List.map_append, List.reverse_append]
      simpa using hrev''
    · show ((st''.sortedTasks ++ [t]).map OTask.id).Nodup
      rw [List.map_append]
      refine List.Nodup.append hnd'' (List.nodup_singleton _) ?_
      intro a ha hb
      simp only [List.map_singleton, List.mem_singleton] at hb
      subst hb
      exact htid_ids ha
    · show ∀ u ∈ st''.sortedTasks ++ [t], findTask tasks u.id = some u
      intro u hu
      rcases List.mem_append.mp hu with hu | hu
      · exact hres'' u hu
      · rw [List.mem_singleton] at hu
        subst hu
        exact hfind
    · show GoodIdx tasks (st''.sortedTasks ++ [t])
      apply goodIdx_append hgood''
      intro d hd td htd
      have hid : td.id ∈ st''.visitedIds := hdepvis'' d hd td htd
      rw [hrev''] at hid
      simp only [List.mem_reverse, List.mem_map] at hid
      obtain ⟨u, hu, huid⟩ := hid
      have h1 := hres'' u hu
      rw [huid] at h1
      have h2 : td.id = d := (findTask_some htd).2
      rw [h2] at h1
      rw [htd] at h1
      cases h1
      exact hu
    · intro i hi
      exact List.mem_cons_of_mem _ (hmono'' i hi)
    · exact List.mem_cons_self _ _
    · intro i hi
      rcases List.mem_cons.mp hi with rfl | hi
      · exact Or.inr (fun hc => hvis (by simpa using hc))
      · rcases hfresh'' i hi with hin | hnv
        · exact Or.inl hin
        · exact Or.inr (fun hc => hnv (List.mem_cons_of_mem _ hc))
  · -- no dependencies left
    intro visiting st st' hok hinv
    rw [visitDeps] at hok
    cases hok
    exact ⟨hinv, fun i hi => hi, by simp, fun i hi => Or.inl hi⟩
  · -- unresolvable dependency id: skipped
    intro visiting st d ds hf ih st' hok hinv
    rw [visitDeps] at hok
    split at hok
    · obtain ⟨hinv', hmono', hdep', hfresh'⟩ := ih st' hok hinv
      refine ⟨hinv', hmono', ?_, hfresh'⟩
      intro d' hd' td htd
      rcases List.mem_cons.mp hd' with rfl | hd'
      · rw [hf] at htd
        cases htd
      · exact hdep' d' hd' td htd
    · rename_i td' heq
      rw [hf] at heq
      exact Option.noConfusion heq
  · -- nested visit errors: the walk errors, not succeeds
    intro visiting st d ds td hf e hvt ih st' hok _
    rw [visitDeps] at hok
    split at hok
    · rename_i heq
      rw [hf] at heq
      exact Option.noConfusion heq
    · rename_i td' heq
      obtain rfl : td' = td := by
        have h2 := hf.symm.trans heq
        exact (Option.some.inj h2).symm
      split at hok
      · cases hok
      · rename_i st'' heq2
        exact Except.noConfusion (hvt.symm.trans heq2)
  · -- nested visit succeeds, walk continues
    intro visiting st d ds td hf stMid hvt ih1 ih2 stF hok hinv
    rw [visitDeps] at hok
    split at hok
    · rename_i heq
      rw [hf] at heq
      exact Option.noConfusion heq
    rename_i td' heq
    have htd' : td = td' := Option.some.inj (hf.symm.trans heq)
    subst htd'
    split at hok
    · rename_i e' heq2
      exact Except.noConfusion (hvt.symm.trans heq2)
    rename_i st'' heq2
    have hst : stMid = st'' := Except.ok.inj (hvt.symm.trans heq2)
    subst hst
    have hfind' : findTask tasks td.id = some td := by
      have h2 := (findTask_some hf).2
      rw [h2]
      exact hf
    obtain ⟨hinvM, hmonoM, htdM, hfreshM⟩ := ih1 stMid hvt hinv (Or.inl hfind')
    obtain ⟨hinvF, hmonoF, hdepF, hfreshF⟩ := ih2 stF hok hinvM
    refine ⟨hinvF, fun i hi => hmonoF i (hmonoM i hi), ?_, ?_⟩
    · intro d' hd' td' htd'
      rcases List.mem_cons.mp hd' with rfl | hd'
      · rw [hf] at htd'
        cases htd'
        exact hmonoF _ htdM
      · exact hdepF d' hd' td' htd'
    · intro i hi
      rcases hfreshF i hi with hin | hnv
      · rcases hfreshM i hin with hin2 | hnv2
        · exact Or.inl hin2
        · exact Or.inr hnv2
      · exact Or.inr hnv

/-- If a nonempty list is a chain for `R` and its last element is `R`-related
to `w`, then zipping it with its tail-plus-`w` wrap-around gives only
`R`-related pairs. -/
theorem all_zip_rot {α : Type} (R : α → α → Bool) (w : α) :
    ∀ (l : List α) (x : α), List.Chain' (fun a b => R a b = true) (x :: l) →
      (∀ z, (x :: l).getLast? = some z → R z w = true) →
      ((x :: l).zip (l ++ [w])).all (fun ab => R ab.1 ab.2) = true := by
  intro l
  induction l with
  | nil =>
    intro x _ hlast
    have := hlast x (by simp)
    simp [this]
  | cons y l' ih =>
    intro x hchain hlast
    rw [List.chain'_cons] at hchain
    simp only [List.cons_append, List.zip_cons_cons, List.all_cons, Bool.and_eq_true]
    refine ⟨hchain.1, ?_⟩
    refine ih y hchain.2 ?_
    intro z hz
    refine hlast z ?_
    rw [List.getLast?_cons_cons]
    exact hz

/-- From the DFS stack discipline — the stack is a dependency chain and its
head is a dependant of `tid` — a stack containing `tid` yields a dependency
cycle through `tid`. -/
theorem cycle_of_visiting (tasks : List OTask) (visiting : List String) (tid : String)
    (hchain : List.Chain' (fun a b => dependsNext tasks b a = true) visiting)
    (hmem : tid ∈ visiting)
    (hhead : ∀ v, visiting.head? = some v → dependsNext tasks v tid = true) :
    ∃ c, isDepCycle tasks c = true ∧ tid ∈ c := by
  obtain ⟨pre, post, rfl⟩ := List.append_of_mem hmem
  refine ⟨tid :: pre.reverse, ?_, List.mem_cons_self _ _⟩
  unfold isDepCycle
  rw [Bool.and_eq_true]
  constructor
  · simp
  · have hrot : (tid :: pre.reverse).rotate 1 = pre.reverse ++ [tid] := by
      rw [List.rotate_cons_succ, List.rotate_zero]
    rw [hrot]
    have h1 : List.Chain' (fun a b => dependsNext tasks b a = true) (pre ++ [tid]) := by
      have heq : pre ++ tid :: post = (pre ++ [tid]) ++ post := by simp
      rw [heq] at hchain
      exact hchain.left_of_append
    have h2 : List.Chain' (fun a b => dependsNext tasks a b = true)
        ((pre ++ [tid]).reverse) := List.chain'_reverse.mpr h1
    have hrev : (pre ++ [tid]).reverse = tid :: pre.reverse := by simp
    rw [hrev] at h2
    refine all_zip_rot (fun a b => dependsNext tasks a b) tid pre.reverse tid h2 ?_
    intro z hz
    apply hhead
    cases pre with
    | nil =>
      simp only [List.reverse_nil, List.getLast?_singleton, Option.some.injEq] at hz
      subst hz
      simp
    | cons a l =>
      have : tid :: (a :: l).reverse = (tid :: l.reverse) ++ [a] := by simp
      rw [this, List.getLast?_concat] at hz
      obtain rfl : a = z := Option.some.inj hz
      simp

/-- Joint error specification of `visitT` and `visitDeps`: when the DFS
stack is a dependency chain whose head depends on the current node, an
error is always a circular-dependency message naming a task that lies on
an actual dependency cycle of the submitted task set. -/
theorem visit_err_spec (tasks : List OTask) :
    (∀ (visiting : List String) (st : SortSt) (t : OTask) (ht : t ∈ tasks),
      ∀ e, visitT tasks visiting st t ht = Except.error e →
        List.Chain' (fun a b => dependsNext tasks b a = true) visiting →
        (∀ v, visiting.head? = some v → dependsNext tasks v t.id = true) →
        (findTask tasks t.id = some t ∨ t.id ∈ st.visitedIds) →
        ∃ i c, e = circularMsg i ∧ isDepCycle tasks c = true ∧ i ∈ c) ∧
    (∀ (visiting : List String) (st : SortSt) (ds : List String),
      ∀ e, visitDeps tasks visiting st ds = Except.error e →
        List.Chain' (fun a b => dependsNext tasks b a = true) visiting →
        (∀ v, visiting.head? = some v →
          ∃ u, findTask tasks v = some u ∧ ∀ d ∈ ds, d ∈ u.dependencies) →
        ∃ i c, e = circularMsg i ∧ isDepCycle tasks c = true ∧ i ∈ c) := by
  refine visitT.mutual_induct tasks
    (fun visiting st t ht => ∀ e, visitT tasks visiting st t ht = Except.error e →
        List.Chain' (fun a b => dependsNext tasks b a = true) visiting →
        (∀ v, visiting.head? = some v → dependsNext tasks v t.id = true) →
        (findTask tasks t.id = some t ∨ t.id ∈ st.visitedIds) →
        ∃ i c, e = circularMsg i ∧ isDepCycle tasks c = true ∧ i ∈ c)
    (fun visiting st ds => ∀ e, visitDeps tasks visiting st ds = Except.error e →
        List.Chain' (fun a b => dependsNext tasks b a = true) visiting →
        (∀ v, visiting.head? = some v →
          ∃ u, findTask tasks v = some u ∧ ∀ d ∈ ds, d ∈ u.dependencies) →
        ∃ i c, e = circularMsg i ∧ isDepCycle tasks c = true ∧ i ∈ c)
    ?_ ?_ ?_ ?_ ?_ ?_ ?_ ?_
  · -- already visited: returns ok, never error
    intro visiting st t ht hcont e hok _ _ _
    rw [visitT, if_pos hcont] at hok
    cases hok
  · -- revisit of a node on the stack: the circular-dependency error
    intro visiting st t ht hcont hvis e hok hchain hhead _
    rw [visitT, if_neg hcont, dif_pos hvis] at hok
    have he : e = circularMsg t.id := (Except.error.inj hok).symm
    obtain ⟨c, hc, hmemc⟩ := cycle_of_visiting tasks visiting t.id hchain
      (by simpa using hvis) hhead
    exact ⟨t.id, c, he, hc, hmemc⟩
  · -- dependency walk errors: propagate via the inner specification
    intro visiting st t ht hcont hvis e0 hdeps ih e hok hchain hhead hfind
    rw [visitT, if_neg hcont, dif_neg hvis] at hok
    simp only [hdeps] at hok
    obtain rfl : e0 = e := Except.error.inj hok
    have hfind' : findTask tasks t.id = some t := by
      rcases hfind with h | h
      · exact h
      · exact absurd (by simpa using h) hcont
    refine ih e0 hdeps ?_ ?_
    · rw [List.chain'_cons']
      exact ⟨fun b hb => hhead b hb, hchain⟩
    · intro v hv
      obtain rfl : t.id = v := Option.some.inj (by simpa using hv)
      exact ⟨t, hfind', fun d hd => hd⟩
  · -- dependency walk succeeds: returns ok, never error
    intro visiting st t ht hcont hvis st'' hdeps _ e hok _ _ _
    rw [visitT, if_neg hcont, dif_neg hvis] at hok
    simp only [hdeps] at hok
    cases hok
  · -- no dependencies left: ok, never error
    intro visiting st e hok _ _
    rw [visitDeps] at hok
    cases hok
  · -- unresolvable dependency id: skipped
    intro visiting st d ds hf ih e hok hchain hhead
    rw [visitDeps] at hok
    split at hok
    · refine ih e hok hchain ?_
      intro v hv
      obtain ⟨u, hu, hds⟩ := hhead v hv
      exact ⟨u, hu, fun d' hd' => hds d' (List.mem_cons_of_mem _ hd')⟩
    · rename_i td' heq
      rw [hf] at heq
      exact Option.noConfusion heq
  · -- nested visit errors: propagate via the visit specification
    intro visiting st d ds td hf e0 hvt ih e hok hchain hhead
    rw [visitDeps] at hok
    split at hok
    · rename_i heq
      rw [hf] at heq
      exact Option.noConfusion heq
    rename_i td' heq
    have htd' : td = td' := Option.some.inj (hf.symm.trans heq)
    subst htd'
    split at hok
    · rename_i e' heq2
      obtain rfl : e0 = e' := Except.error.inj (hvt.symm.trans heq2)
      obtain rfl : e0 = e := Except.error.inj hok
      refine ih e0 hvt hchain ?_ (Or.inl ?_)
      · intro v hv
        obtain ⟨u, hu, hds⟩ := hhead v hv
        have hdid : td.id = d := (findTask_some hf).2
        rw [dependsNext_iff]
        exact ⟨u, hu, by rw [hdid]; exact hds d (List.mem_cons_self _ _)⟩
      · have hdid : td.id = d := (findTask_some hf).2
        rw [hdid]
        exact hf
    · rename_i st'' heq2
      exact Except.noConfusion (hvt.symm.trans heq2)
  · -- nested visit succeeds, walk continues
    intro visiting st d ds td hf stMid hvt ih1 ih2 e hok hchain hhead
    rw [visitDeps] at hok
    split at hok
    · rename_i heq
      rw [hf] at heq
      exact Option.noConfusion heq
    rename_i td' heq
    have htd' : td = td' := Option.some.inj (hf.symm.trans heq)
    subst htd'
    split at hok
    · rename_i e' heq2
      exact Except.noConfusion (hvt.symm.trans heq2)
    rename_i st'' heq2
    have hst : stMid = st'' := Except.ok.inj (hvt.symm.trans heq2)
    subst hst
    refine ih2 e hok hchain ?_
    intro v hv
    obtain ⟨u, hu, hds⟩ := hhead v hv
    exact ⟨u, hu, fun d' hd' => hds d' (List.mem_cons_of_mem _ hd')⟩

/-- Success specification of the top-level visit loop: starting from a
state satisfying the invariant, and with every loop element either
resolvable to itself, already visited, or preceded by an element of the
same id, a successful run preserves the invariant, grows the visited set,
and visits every element. -/
theorem visitAll_ok_spec (tasks : List OTask) :
    ∀ (l : List {t // t ∈ tasks}) (st st' : SortSt),
      visitAll tasks l st = Except.ok st' → sortInv tasks st →
      (∀ pre z post, l = pre ++ z :: post →
        findTask tasks z.1.id = some z.1 ∨ z.1.id ∈ st.visitedIds ∨
          ∃ y ∈ pre, y.1.id = z.1.id) →
      sortInv tasks st' ∧ (∀ i ∈ st.visitedIds, i ∈ st'.visitedIds) ∧
        ∀ x ∈ l, x.1.id ∈ st'.visitedIds := by
  intro l
  induction l with
  | nil =>
    intro st st' hok hinv _
    simp only [visitAll] at hok
    cases hok
    exact ⟨hinv, fun i hi => hi, by simp⟩
  | cons x ts ih =>
    intro st st' hok hinv HL
    simp only [visitAll] at hok
    cases hvt : visitT tasks [] st x.1 x.2 with
    | error e =>
      rw [hvt] at hok
      cases hok
    | ok st1 =>
      rw [hvt] at hok
      have hfind : findTask tasks x.1.id = some x.1 ∨ x.1.id ∈ st.visitedIds := by
        rcases HL [] x ts rfl with h | h | h
        · exact Or.inl h
        · exact Or.inr h
        · obtain ⟨y, hy, _⟩ := h
          exact absurd hy (List.not_mem_nil y)
      obtain ⟨hinv1, hmono1, hxid, _⟩ :=
        (visit_ok_spec tasks).1 [] st x.1 x.2 st1 hvt hinv hfind
      have HL' : ∀ pre z post, ts = pre ++ z :: post →
          findTask tasks z.1.id = some z.1 ∨ z.1.id ∈ st1.visitedIds ∨
            ∃ y ∈ pre, y.1.id = z.1.id := by
        intro pre z post hts
        rcases HL (x :: pre) z post (by rw [hts]; rfl) with h | h | h
        · exact Or.inl h
        · exact Or.inr (Or.inl (hmono1 _ h))
        · obtain ⟨y, hy, hyid⟩ := h
          rcases List.mem_cons.mp hy with rfl | hy2
          · refine Or.inr (Or.inl ?_)
            rw [← hyid]
            exact hxid
          · exact Or.inr (Or.inr ⟨y, hy2, hyid⟩)
      obtain ⟨hinvF, hmonoF, hallF⟩ := ih st1 st' hok hinv1 HL'
      refine ⟨hinvF, fun i hi => hmonoF i (hmono1 i hi), ?_⟩
      intro z hz
      rcases List.mem_cons.mp hz with rfl | hz2
      · exact hmonoF _ hxid
      · exact hallF z hz2

/-- Error specification of the top-level visit loop: under the same
entry conditions, an error is a circular-dependency message naming a task
on an actual dependency cycle. -/
theorem visitAll_err_spec (tasks : List OTask) :
    ∀ (l : List {t // t ∈ tasks}) (st : SortSt) (e : String),
      visitAll tasks l st = Except.error e → sortInv tasks st →
      (∀ pre z post, l = pre ++ z :: post →
        findTask tasks z.1.id = some z.1 ∨ z.1.id ∈ st.visitedIds ∨
          ∃ y ∈ pre, y.1.id = z.1.id) →
      ∃ i c, e = circularMsg i ∧ isDepCycle tasks c = true ∧ i ∈ c := by
  intro l
  induction l with
  | nil =>
    intro st e hok _ _
    simp only [visitAll] at hok
    cases hok
  | cons x ts ih =>
    intro st e hok hinv HL
    simp only [visitAll] at hok
    have hfind : findTask tasks x.1.id = some x.1 ∨ x.1.id ∈ st.visitedIds := by
      rcases HL [] x ts rfl with h | h | h
      · exact Or.inl h
      · exact Or.inr h
      · obtain ⟨y, hy, _⟩ := h
        exact absurd hy (List.not_mem_nil y)
    cases hvt : visitT tasks [] st x.1 x.2 with
    | error e0 =>
      rw [hvt] at hok
      obtain rfl : e0 = e := Except.error.inj hok
      refine (visit_err_spec tasks).1 [] st x.1 x.2 e0 hvt List.chain'_nil ?_ hfind
      intro v hv
      exact Option.noConfusion hv
    | ok st1 =>
      rw [hvt] at hok
      obtain ⟨hinv1, hmono1, hxid, _⟩ :=
        (visit_ok_spec tasks).1 [] st x.1 x.2 st1 hvt hinv hfind
      refine ih st1 e hok hinv1 ?_
      intro pre z post hts
      rcases HL (x :: pre) z post (by rw [hts]; rfl) with h | h | h
      · exact Or.inl h
      · exact Or.inr (Or.inl (hmono1 _ h))
      · obtain ⟨y, hy, hyid⟩ := h
        rcases List.mem_cons.mp hy with rfl | hy2
        · refine Or.inr (Or.inl ?_)
          rw [← hyid]
          exact hxid
        · exact Or.inr (Or.inr ⟨y, hy2, hyid⟩)

/-- Every element of the attached task list is either what `tasks.find`
resolves its id to, or is preceded by an element with the same id. -/
theorem attach_HL (tasks : List OTask) :
    ∀ pre z post, tasks.attach = pre ++ z :: post →
      findTask tasks z.1.id = some z.1 ∨ ∃ y ∈ pre, y.1.id = z.1.id := by
  intro pre z post h
  have htasks : tasks = pre.map Subtype.val ++ z.1 :: post.map Subtype.val := by
    conv_lhs => rw [← List.attach_map_subtype_val tasks]
    rw [h]
    simp
  cases hfp : (pre.map Subtype.val).find? (fun t => t.id == z.1.id) with
  | some u =>
    right
    have hu : u ∈ pre.map Subtype.val := List.mem_of_find?_eq_some hfp
    have huid : u.id = z.1.id := by
      have := List.find?_some hfp
      simpa using this
    obtain ⟨y, hy, hyval⟩ := List.mem_map.mp hu
    exact ⟨y, hy, by rw [hyval]; exact huid⟩
  | none =>
    left
    obtain ⟨zv, hzmem⟩ := z
    have htasks' : tasks = pre.map Subtype.val ++ zv :: post.map Subtype.val := htasks
    have hfp' : (pre.map Subtype.val).find? (fun t => t.id == zv.id) = none := hfp
    show findTask tasks zv.id = some zv
    unfold findTask
    conv_lhs => rw [htasks']
    rw [List.find?_append, hfp', Option.none_or]
    rw [List.find?_cons_of_pos _ (by simp)]

/-- The initial DFS state satisfies the invariant. -/
theorem sortInv_init (tasks : List OTask) : sortInv tasks ⟨[], []⟩ := by
  refine ⟨rfl, by simp, by simp, ?_⟩
  intro n hn
  simp at hn

/-- A successful topological sort yields a final state satisfying the DFS
invariant in which every submitted task's id was visited. -/
theorem topologicalSort_ok_spec {tasks : List OTask} {sorted : List OTask}
    (h : topologicalSort tasks = Except.ok sorted) :
    ∃ stF, visitAll tasks tasks.attach ⟨[], []⟩ = Except.ok stF ∧
      stF.sortedTasks = sorted ∧ sortInv tasks stF ∧
      ∀ t ∈ tasks, t.id ∈ stF.visitedIds := by
  unfold topologicalSort at h
  cases hva : visitAll tasks tasks.attach ⟨[], []⟩ with
  | error e =>
    rw [hva] at h
    cases h
  | ok stF =>
    rw [hva] at h
    obtain rfl : stF.sortedTasks = sorted := Except.ok.inj h
    have HL0 : ∀ pre z post, tasks.attach = pre ++ z :: post →
        findTask tasks z.1.id = some z.1 ∨
          z.1.id ∈ (⟨[], []⟩ : SortSt).visitedIds ∨
          ∃ y ∈ pre, y.1.id = z.1.id := by
      intro pre z post hsplit
      rcases attach_HL tasks pre z post hsplit with h' | h'
      · exact Or.inl h'
      · exact Or.inr (Or.inr h')
    obtain ⟨hinvF, _, hallF⟩ :=
      visitAll_ok_spec tasks tasks.attach ⟨[], []⟩ stF hva (sortInv_init tasks) HL0
    refine ⟨stF, rfl, rfl, hinvF, ?_⟩
    intro t ht
    exact hallF ⟨t, ht⟩ (List.mem_attach _ _)

/-- An erroring topological sort reports a circular-dependency message
naming a task on an actual dependency cycle. -/
theorem topologicalSort_err_spec {tasks : List OTask} {e : String}
    (h : topologicalSort tasks = Except.error e) :
    ∃ i c, e = circularMsg i ∧ isDepCycle tasks c = true ∧ i ∈ c := by
  unfold topologicalSort at h
  cases hva : visitAll tasks tasks.attach ⟨[], []⟩ with
  | error e0 =>
    rw [hva] at h
    obtain rfl : e0 = e := Except.error.inj h
    refine visitAll_err_spec tasks tasks.attach ⟨[], []⟩ e0 hva (sortInv_init tasks) ?_
    intro pre z post hsplit
    rcases attach_HL tasks pre z post hsplit with h' | h'
    · exact Or.inl h'
    · exact Or.inr (Or.inr h')
  | ok stF =>
    rw [hva] at h
    cases h

/-- On a dependency cycle, every node has a cyclically next node it
depends on. -/
theorem depCycle_next {tasks : List OTask} {c : List String}
    (hc : isDepCycle tasks c = true) :
    ∀ a ∈ c, ∃ b ∈ c, dependsNext tasks a b = true := by
  unfold isDepCycle at hc
  rw [Bool.and_eq_true] at hc
  obtain ⟨_, hall⟩ := hc
  intro a ha
  obtain ⟨⟨k, hk⟩, hget⟩ := List.mem_iff_get.mp ha
  have hlenrot : (c.rotate 1).length = c.length := List.length_rotate c 1
  have hkz : k < (c.zip (c.rotate 1)).length := by
    rw [List.length_zip, hlenrot, min_self]
    exact hk
  have hkr : k < (c.rotate 1).length := by
    rw [hlenrot]
    exact hk
  have hpair : (c.zip (c.rotate 1)).get ⟨k, hkz⟩ =
      (c.get ⟨k, hk⟩, (c.rotate 1).get ⟨k, hkr⟩) := List.get_zip
  have hmempair : (c.get ⟨k, hk⟩, (c.rotate 1).get ⟨k, hkr⟩) ∈ c.zip (c.rotate 1) := by
    rw [← hpair]
    exact List.get_mem _ _ _
  have hdep := List.all_eq_true.mp hall _ hmempair
  refine ⟨(c.rotate 1).get ⟨k, hkr⟩, ?_, ?_⟩
  · have hmr : (c.rotate 1).get ⟨k, hkr⟩ ∈ c.rotate 1 := List.get_mem _ _ _
    rw [List.mem_rotate] at hmr
    exact hmr
  · rw [hget] at hdep
    exact hdep

/-- Completeness of cycle detection: if the submitted task set carries a
dependency cycle, the topological sort cannot succeed. -/
theorem topologicalSort_cycle_no_ok {tasks : List OTask} {c : List String}
    (hc : isDepCycle tasks c = true) {sorted : List OTask}
    (h : topologicalSort tasks = Except.ok sorted) : False := by
  obtain ⟨stF, _, _, hinvF, hallF⟩ := topologicalSort_ok_spec h
  obtain ⟨hrev, _, hres, hgood⟩ := hinvF
  have hidx : ∀ a ∈ c, ∃ n, ∃ hn : n < stF.sortedTasks.length,
      (stF.sortedTasks.get ⟨n, hn⟩).id = a := by
    intro a ha
    obtain ⟨b, _, hdep⟩ := depCycle_next hc a ha
    rw [dependsNext_iff] at hdep
    obtain ⟨u, hu, _⟩ := hdep
    obtain ⟨humem, huid⟩ := findTask_some hu
    have hvis : u.id ∈ stF.visitedIds := hallF u humem
    rw [hrev, List.mem_reverse, List.mem_map] at hvis
    obtain ⟨w, hw, hwid⟩ := hvis
    obtain ⟨⟨n, hn⟩, hgetw⟩ := List.mem_iff_get.mp hw
    refine ⟨n, hn, ?_⟩
    rw [hgetw, hwid, huid]
  have hnotP : ∀ n, ¬ (∃ hn : n < stF.sortedTasks.length,
      (stF.sortedTasks.get ⟨n, hn⟩).id ∈ c) := by
    intro n
    induction n using Nat.strong_induction_on with
    | _ n IH =>
      rintro ⟨hn, hmem⟩
      set w := stF.sortedTasks.get ⟨n, hn⟩ with hw
      obtain ⟨b, hbc, hdep⟩ := depCycle_next hc w.id hmem
      rw [dependsNext_iff] at hdep
      obtain ⟨u, hu, hbu⟩ := hdep
      have hwu : u = w := by
        have h1 := hres w (List.get_mem _ _ _)
        rw [h1] at hu
        exact (Option.some.inj hu).symm
      subst hwu
      obtain ⟨td, htd⟩ : ∃ td, findTask tasks b = some td := by
        obtain ⟨b2, _, hdep2⟩ := depCycle_next hc b hbc
        rw [dependsNext_iff] at hdep2
        obtain ⟨u2, hu2, _⟩ := hdep2
        exact ⟨u2, hu2⟩
      obtain ⟨m, hm, hmn, hgetm⟩ := hgood n hn b hbu td htd
      refine IH m hmn ⟨hm, ?_⟩
      rw [hgetm]
      rw [(findTask_some htd).2]
      exact hbc
  obtain ⟨a, ha⟩ : ∃ a, a ∈ c := by
    unfold isDepCycle at hc
    rw [Bool.and_eq_true] at hc
    rcases c with _ | ⟨x, xs⟩
    · simp at hc
    · exact ⟨x, List.mem_cons_self _ _⟩
  obtain ⟨n, hn, hna⟩ := hidx a ha
  exact hnotP n ⟨hn, by rw [hna]; exact ha⟩

/-- C5: if the submitted task set carries a dependency cycle, `execute`
fails with a circular-dependency error naming an offending task — one that
lies on an actual cycle of the dependency graph — no agent is invoked, and
no `TaskResult` is produced: `topologicalSort` throws before the task loop
is entered, and the throw propagates out of `execute`. -/
theorem claim_C5 (tasks : List OTask) (agents : List (String × AgentFn))
    (c : List String) (hc : isDepCycle tasks c = true) :
    ∃ i c', isDepCycle tasks c' = true ∧ i ∈ c' ∧
      topologicalSort tasks = Except.error (circularMsg i) ∧
      executeO tasks agents = (Except.error (circularMsg i), []) := by
  cases hts : topologicalSort tasks with
  | ok sorted => exact (topologicalSort_cycle_no_ok hc hts).elim
  | error e =>
    obtain ⟨i, c', he, hc', hi⟩ := topologicalSort_err_spec hts
    subst he
    refine ⟨i, c', hc', hi, rfl, ?_⟩
    unfold executeO
    rw [hts]

/-- Witness for C5 at the concrete 3-task cycle A→B→C→A. -/
theorem claim_C5_witness :
    ∃ i c',
      isDepCycle [⟨"A", "w", Payload.raw "", ["B"]⟩, ⟨"B", "w", Payload.raw "", ["C"]⟩,
        ⟨"C", "w", Payload.raw "", ["A"]⟩] c' = true ∧ i ∈ c' ∧
      topologicalSort [⟨"A", "w", Payload.raw "", ["B"]⟩, ⟨"B", "w", Payload.raw "", ["C"]⟩,
        ⟨"C", "w", Payload.raw "", ["A"]⟩] = Except.error (circularMsg i) ∧
      executeO [⟨"A", "w", Payload.raw "", ["B"]⟩, ⟨"B", "w", Payload.raw "", ["C"]⟩,
        ⟨"C", "w", Payload.raw "", ["A"]⟩] [] = (Except.error (circularMsg i), []) :=
  claim_C5 _ _ ["A", "B", "C"] (by decide)

/-- `mapGet` after a `mapSet`, for arbitrary value types. -/
theorem mapGet_mapSet_poly {β : Type} (m : List (String × β)) (k k' : String) (v : β) :
    mapGet (mapSet m k v) k' = if k = k' then some v else mapGet m k' := by
  induction m with
  | nil =>
    by_cases h : k = k' <;> simp [mapSet, mapGet, List.find?_cons, h]
  | cons e rest ih =>
    by_cases he : e.1 = k
    · by_cases h : k = k'
      · subst h
        simp [mapSet, if_pos he, mapGet, List.find?_cons]
      · have he' : e.1 ≠ k' := by rw [he]; exact h
        simp [mapSet, if_pos he, mapGet_cons_poly, h, he']
    · by_cases h : k = k'
      · subst h
        simp only [mapSet, if_neg he, mapGet_cons_poly, he, if_false]
        rw [ih]
        simp
      · simp only [mapSet, if_neg he, mapGet_cons_poly]
        rw [ih]
        simp [h]

/-- `Map.set` on a key absent from the map appends the new entry. -/
theorem mapSet_fresh {β : Type} (m : List (String × β)) (k : String) (v : β)
    (h : mapGet m k = none) : mapSet m k v = m ++ [(k, v)] := by
  induction m with
  | nil => rfl
  | cons e rest ih =>
    rw [mapGet_cons_poly] at h
    by_cases he : e.1 = k
    · rw [if_pos he] at h
      cases h
    · rw [if_neg he] at h
      simp only [mapSet, if_neg he, List.cons_append]
      rw [ih h]

/-- Every `TaskResult` produced by one loop iteration carries the task's
id, and so does every agent invocation the iteration performs. -/
theorem runStep_tags (agents : List (String × AgentFn))
    (results : List (String × TaskResult)) (t : OTask) :
    (runStep agents results t).1.taskId = t.id ∧
    ∀ e ∈ (runStep agents results t).2, e.1 = t.id := by
  unfold runStep
  by_cases hd : depsMet results t
  · rw [if_neg (by simp [hd])]
    cases hma : mapGet agents t.type with
    | none => simp
    | some ag =>
      simp only []
      cases hia : ag (prepareInput results t) with
      | error m => simp [hia]
      | ok out => simp [hia]
  · rw [if_pos (by simp [hd])]
    simp

/-- A failed dependency check short-circuits the iteration: the recorded
result is the failed "Dependencies not satisfied" `TaskResult` and no
agent is invoked. -/
theorem runStep_depFail (agents : List (String × AgentFn))
    (results : List (String × TaskResult)) (t : OTask)
    (h : depsMet results t = false) :
    runStep agents results t = (⟨t.id, false, none,
      some ("Dependencies not satisfied for task " ++ t.id), 0⟩, []) := by
  unfold runStep
  rw [if_pos (by simp [h])]

/-- One-step unfolding of the task loop. -/
theorem runTasks_cons (agents : List (String × AgentFn)) (t : OTask) (ts : List OTask)
    (results : List (String × TaskResult)) (errors : List String)
    (invs : List (String × String × Payload)) :
    runTasks agents (t :: ts) results errors invs =
      runTasks agents ts (mapSet results t.id (runStep agents results t).1)
        (if (runStep agents results t).1.success then errors
         else errors ++ ["Task " ++ t.id ++ ": " ++ ((runStep agents results t).1.error.getD "")])
        (invs ++ (runStep agents results t).2) := by
  simp only [runTasks]

/-- Full characterization of the task loop on tasks with fresh, duplicate
free ids: the results map grows by one tagged entry per task in order, the
error list collects exactly one message per failed task, every invocation
is tagged by a task of the list, and each task whose dependency check
fails against the results accumulated so far is recorded as the failed
"Dependencies not satisfied" result with no invocation tagged by its id. -/
theorem runTasks_spec (agents : List (String × AgentFn)) :
    ∀ (ts : List OTask) (results : List (String × TaskResult)) (errors : List String)
      (invs : List (String × String × Payload)),
      (∀ t ∈ ts, mapGet results t.id = none) →
      (ts.map OTask.id).Nodup →
      ∃ (trs : List TaskResult) (newInvs : List (String × String × Payload)),
        runTasks agents ts results errors invs =
          (results ++ trs.map (fun tr => (tr.taskId, tr)),
           errors ++ (trs.filter (fun tr => !tr.success)).map
             (fun tr => "Task " ++ tr.taskId ++ ": " ++ (tr.error.getD "")),
           invs ++ newInvs) ∧
        trs.length = ts.length ∧
        (∀ e ∈ newInvs, ∃ u ∈ ts, e.1 = u.id) ∧
        (∀ k, ∀ hk : k < ts.length, ∀ hk' : k < trs.length,
          (trs.get ⟨k, hk'⟩).taskId = (ts.get ⟨k, hk⟩).id ∧
          (depsMet (results ++ (trs.take k).map (fun tr => (tr.taskId, tr)))
              (ts.get ⟨k, hk⟩) = false →
            trs.get ⟨k, hk'⟩ = ⟨(ts.get ⟨k, hk⟩).id, false, none,
              some ("Dependencies not satisfied for task " ++ (ts.get ⟨k, hk⟩).id), 0⟩ ∧
            ∀ e ∈ newInvs, e.1 ≠ (ts.get ⟨k, hk⟩).id)) := by
  intro ts
  induction ts with
  | nil =>
    intro results errors invs _ _
    refine ⟨[], [], by simp [runTasks], rfl, by simp, ?_⟩
    intro k hk
    exact absurd hk (Nat.not_lt_zero k)
  | cons t ts ih =>
    intro results errors invs hfresh hnodup
    have hnodup2 : t.id ∉ ts.map OTask.id ∧ (ts.map OTask.id).Nodup := by
      rw [List.map_cons, List.nodup_cons] at hnodup
      exact hnodup
    have htid : (runStep agents results t).1.taskId = t.id := (runStep_tags agents results t).1
    have hmapset : mapSet results t.id (runStep agents results t).1 =
        results ++ [(t.id, (runStep agents results t).1)] :=
      mapSet_fresh _ _ _ (hfresh t (List.mem_cons_self _ _))
    have hfresh' : ∀ u ∈ ts,
        mapGet (results ++ [(t.id, (runStep agents results t).1)]) u.id = none := by
      intro u hu
      rw [← hmapset, mapGet_mapSet_poly]
      rw [if_neg ?_]
      · exact hfresh u (List.mem_cons_of_mem _ hu)
      · intro hc
        exact hnodup2.1 (hc ▸ List.mem_map_of_mem OTask.id hu)
    obtain ⟨trs, newInvs, heq, hlen, htag, hspec⟩ :=
      ih (results ++ [(t.id, (runStep agents results t).1)])
        (if (runStep agents results t).1.success then errors
         else errors ++ ["Task " ++ t.id ++ ": " ++ ((runStep agents results t).1.error.getD "")])
        (invs ++ (runStep agents results t).2) hfresh' hnodup2.2
    refine ⟨(runStep agents results t).1 :: trs, (runStep agents results t).2 ++ newInvs,
      ?_, ?_, ?_, ?_⟩
    · rw [runTasks_cons, hmapset, heq]
      refine Prod.ext ?_ (Prod.ext ?_ ?_)
      · show (results ++ [(t.id, (runStep agents results t).1)]) ++
            trs.map (fun tr => (tr.taskId, tr)) = _
        rw [List.append_assoc]
        simp [htid]
      · cases hs : (runStep agents results t).1.success with
        | true => simp [List.filter_cons, hs]
        | false => simp [List.filter_cons, hs, htid, List.append_assoc]
      · show (invs ++ (runStep agents results t).2) ++ newInvs = _
        rw [List.append_assoc]
    · simp [hlen]
    · intro e he
      rcases List.mem_append.mp he with he | he
      · exact ⟨t, List.mem_cons_self _ _, (runStep_tags agents results t).2 e he⟩
      · obtain ⟨u, hu, hue⟩ := htag e he
        exact ⟨u, List.mem_cons_of_mem _ hu, hue⟩
    · intro k hk hk'
      cases k with
      | zero =>
        refine ⟨htid, ?_⟩
        intro hdm
        have hdm0 : depsMet results t = false := by
          simpa using hdm
        have hstep := runStep_depFail agents results t hdm0
        constructor
        · show (runStep agents results t).1 = _
          rw [hstep]
          rfl
        · intro e he hc
          rcases List.mem_append.mp he with he | he
          · rw [hstep] at he
            exact absurd he (List.not_mem_nil e)
          · obtain ⟨u, hu, hue⟩ := htag e he
            apply hnodup2.1
            show t.id ∈ _
            have : (t :: ts).get ⟨0, hk⟩ = t := rfl
            rw [this] at hc
            rw [← hc, hue]
            exact List.mem_map_of_mem OTask.id hu
      | succ k =>
        have hk2 : k < ts.length := by
          simpa using hk
        have hk2' : k < trs.length := by
          simpa using hk'
        have hgets : (t :: ts).get ⟨k + 1, hk⟩ = ts.get ⟨k, hk2⟩ := rfl
        have hgett : ((runStep agents results t).1 :: trs).get ⟨k + 1, hk'⟩ =
            trs.get ⟨k, hk2'⟩ := rfl
        obtain ⟨htag2, hdep2⟩ := hspec k hk2 hk2'
        rw [hgets, hgett]
        refine ⟨htag2, ?_⟩
        intro hdm
        have hdm2 : depsMet ((results ++ [(t.id, (runStep agents results t).1)]) ++
            (trs.take k).map (fun tr => (tr.taskId, tr))) (ts.get ⟨k, hk2⟩) = false := by
          rw [List.append_assoc]
          have hT : ((runStep agents results t).1 :: trs).take (k + 1) =
              (runStep agents results t).1 :: trs.take k := rfl
          rw [hT] at hdm
          simp only [List.map_cons, htid] at hdm
          simpa using hdm
        obtain ⟨hres2, hninv2⟩ := hdep2 hdm2
        refine ⟨hres2, ?_⟩
        intro e he hc
        rcases List.mem_append.mp he with he | he
        · have het : e.1 = t.id := (runStep_tags agents results t).2 e he
          apply hnodup2.1
          rw [← het, hc]
          exact List.mem_map_of_mem OTask.id (List.get_mem _ _ _)
        · exact hninv2 e he hc

/-- C6: during `execute` over a task set whose topological sort succeeds,
every sorted task is recorded with exactly one `TaskResult` in order (a
failure never aborts the remaining tasks), the run's overall `success` is
the conjunction of the individual task successes, `errors` holds exactly
one message per failed task, and a task whose declared dependencies are
not all recorded successful at its turn is recorded as the failed
"Dependencies not satisfied" result with its agent never invoked. -/
theorem claim_C6 (tasks : List OTask) (agents : List (String × AgentFn))
    (sorted : List OTask) (hsort : topologicalSort tasks = Except.ok sorted) :
    ∃ (r : OrchestrationResult) (invLog : List (String × String × Payload)),
      executeO tasks agents = (Except.ok r, invLog) ∧
      r.results.map (fun tr => tr.taskId) = sorted.map OTask.id ∧
      (r.success = true ↔ ∀ tr ∈ r.results, tr.success = true) ∧
      r.errors = (r.results.filter (fun tr => !tr.success)).map
        (fun tr => "Task " ++ tr.taskId ++ ": " ++ (tr.error.getD "")) ∧
      (∀ k, ∀ hk : k < sorted.length, ∀ hk' : k < r.results.length,
        depsMet ((r.results.take k).map (fun tr => (tr.taskId, tr)))
            (sorted.get ⟨k, hk⟩) = false →
          r.results.get ⟨k, hk'⟩ = ⟨(sorted.get ⟨k, hk⟩).id, false, none,
            some ("Dependencies not satisfied for task " ++ (sorted.get ⟨k, hk⟩).id), 0⟩ ∧
          ∀ e ∈ invLog, e.1 ≠ (sorted.get ⟨k, hk⟩).id) := by
  have hnodup : (sorted.map OTask.id).Nodup := by
    obtain ⟨stF, _, hEq, hinv, _⟩ := topologicalSort_ok_spec hsort
    rw [← hEq]
    exact hinv.2.1
  obtain ⟨trs, newInvs, heq, hlen, htag, hspec⟩ :=
    runTasks_spec agents sorted [] [] [] (fun t _ => rfl) hnodup
  refine ⟨⟨((trs.filter (fun tr => !tr.success)).map
      (fun tr => "Task " ++ tr.taskId ++ ": " ++ (tr.error.getD ""))).isEmpty,
      trs, 0,
      (trs.filter (fun tr => !tr.success)).map
        (fun tr => "Task " ++ tr.taskId ++ ": " ++ (tr.error.getD ""))⟩,
    newInvs, ?_, ?_, ?_, ?_, ?_⟩
  · unfold executeO
    rw [hsort]
    simp only [heq, List.nil_append]
    simp
    have hcomp : (Prod.snd ∘ fun tr : TaskResult => (tr.taskId, tr)) = id := rfl
    rw [hcomp, List.map_id]
  · show trs.map (fun tr => tr.taskId) = sorted.map OTask.id
    refine List.ext_get ?_ ?_
    · simp [hlen]
    · intro n h1 h2
      rw [List.get_map, List.get_map]
      exact (hspec n (by simpa using h2) (by simpa using h1)).1
  · show ((trs.filter (fun tr => !tr.success)).map
        (fun tr => "Task " ++ tr.taskId ++ ": " ++ (tr.error.getD ""))).isEmpty = true ↔
      ∀ tr ∈ trs, tr.success = true
    simp [List.isEmpty_iff, List.filter_eq_nil]
  · rfl
  · intro k hk hk' hdm
    have hdm' : depsMet ([] ++ (trs.take k).map (fun tr => (tr.taskId, tr)))
        (sorted.get ⟨k, hk⟩) = false := by simpa using hdm
    exact (hspec k hk hk').2 hdm'

/-- Equation lemma for `visitDeps` on a resolvable dependency id, with the
dependent match on `tasks.find` discharged. -/
theorem visitDeps_cons_some {tasks : List OTask} {visiting : List String} {st : SortSt}
    {d : String} {ds : List String} {td : OTask} (hf : findTask tasks d = some td) :
    visitDeps tasks visiting st (d :: ds) =
      match visitT tasks visiting st td (List.mem_of_find?_eq_some hf) with
      | .error e => .error e
      | .ok st' => visitDeps tasks visiting st' ds := by
  rw [visitDeps]
  split
  · rename_i heq
    rw [hf] at heq
    exact Option.noConfusion heq
  · rename_i td' heq
    have h2 : td = td' := Option.some.inj (hf.symm.trans heq)
    subst h2
    rfl

/-- Witness for C6 at a concrete two-task set (B depends on A) with no
registered agents. -/
theorem claim_C6_witness :
    ∃ (r : OrchestrationResult) (invLog : List (String × String × Payload)),
      executeO [⟨"A", "w", Payload.raw "", []⟩, ⟨"B", "x", Payload.raw "", ["A"]⟩] [] =
        (Except.ok r, invLog) ∧
      r.results.map (fun tr => tr.taskId) =
        ([⟨"A", "w", Payload.raw "", []⟩, ⟨"B", "x", Payload.raw "", ["A"]⟩] :
          List OTask).map OTask.id ∧
      (r.success = true ↔ ∀ tr ∈ r.results, tr.success = true) ∧
      r.errors = (r.results.filter (fun tr => !tr.success)).map
        (fun tr => "Task " ++ tr.taskId ++ ": " ++ (tr.error.getD "")) ∧
      (∀ k, ∀ hk : k < ([⟨"A", "w", Payload.raw "", []⟩, ⟨"B", "x", Payload.raw "", ["A"]⟩] :
          List OTask).length, ∀ hk' : k < r.results.length,
        depsMet ((r.results.take k).map (fun tr => (tr.taskId, tr)))
            (([⟨"A", "w", Payload.raw "", []⟩, ⟨"B", "x", Payload.raw "", ["A"]⟩] :
              List OTask).get ⟨k, hk⟩) = false →
          r.results.get ⟨k, hk'⟩ = ⟨(([⟨"A", "w", Payload.raw "", []⟩,
              ⟨"B", "x", Payload.raw "", ["A"]⟩] : List OTask).get ⟨k, hk⟩).id, false, none,
            some ("Dependencies not satisfied for task " ++
              (([⟨"A", "w", Payload.raw "", []⟩, ⟨"B", "x", Payload.raw "", ["A"]⟩] :
                List OTask).get ⟨k, hk⟩).id), 0⟩ ∧
          ∀ e ∈ invLog, e.1 ≠ (([⟨"A", "w", Payload.raw "", []⟩,
            ⟨"B", "x", Payload.raw "", ["A"]⟩] : List OTask).get ⟨k, hk⟩).id) :=
  claim_C6 [⟨"A", "w", Payload.raw "", []⟩, ⟨"B", "x", Payload.raw "", ["A"]⟩] []
    [⟨"A", "w", Payload.raw "", []⟩, ⟨"B", "x", Payload.raw "", ["A"]⟩]
    (by
      have eA : findTask [⟨"A", "w", Payload.raw "", []⟩, ⟨"B", "x", Payload.raw "", ["A"]⟩]
          "A" = some ⟨"A", "w", Payload.raw "", []⟩ := rfl
      have e1 : ∀ h, visitT [⟨"A", "w", Payload.raw "", []⟩, ⟨"B", "x", Payload.raw "", ["A"]⟩]
          [] ⟨[], []⟩ ⟨"A", "w", Payload.raw "", []⟩ h =
          Except.ok ⟨["A"], [⟨"A", "w", Payload.raw "", []⟩]⟩ := by
        intro h
        rw [visitT, visitDeps]
        rfl
      have e2a : visitDeps [⟨"A", "w", Payload.raw "", []⟩, ⟨"B", "x", Payload.raw "", ["A"]⟩]
          ["B"] ⟨["A"], [⟨"A", "w", Payload.raw "", []⟩]⟩ ["A"] =
          Except.ok ⟨["A"], [⟨"A", "w", Payload.raw "", []⟩]⟩ := by
        rw [visitDeps_cons_some eA]
        simp +decide [visitT, visitDeps]
      have e2 : ∀ h, visitT [⟨"A", "w", Payload.raw "", []⟩, ⟨"B", "x", Payload.raw "", ["A"]⟩]
          [] ⟨["A"], [⟨"A", "w", Payload.raw "", []⟩]⟩ ⟨"B", "x", Payload.raw "", ["A"]⟩ h =
          Except.ok ⟨["B", "A"], [⟨"A", "w", Payload.raw "", []⟩,
            ⟨"B", "x", Payload.raw "", ["A"]⟩]⟩ := by
        intro h
        rw [visitT]
        simp +decide [e2a]
      simp +decide [topologicalSort, List.attach, List.attachWith, List.pmap,
        visitAll, e1, e2])

end FairSplit
